import Mathlib

/-!
Shallow embedding of the trace-analysis core of `L_bash_profile.py`
(the `analyze` pipeline): the data model (`FunctionKey`, `Record`,
`CallgraphNode`, `CallstatsNode`, `CmdStats`, `Pstats`), the Record
Sequencer (`Analyzer.calculate_records_spent_time`), the Call-Tree
Builder (`Analyzer.get_callgraph`), the Stats Aggregator
(`traverse_for_callstats`), and the Pstats exporter walk (`fillstats`).

Conventions of the embedding:
* Python `int` is modelled as `Int` (timestamps, levels, line numbers,
  microsecond durations may be negative in principle); counters that are
  only ever incremented are modelled as `Nat`.
* Python `dict` (insertion-ordered) is modelled as an association list
  `List (K × V)`; `setdefault` inserts at the end, updates keep the
  position of the key, exactly as CPython dicts do.
* In-place mutation is modelled by explicit state passing; an `assert`
  failure or an uncaught exception is modelled as `none` of an `Option`.
* Python `float` seconds (`us2s`) are modelled as exact rationals `ℚ`;
  the claims treated here concern which arithmetic operations are
  performed, not IEEE-754 rounding.
-/

/-- Mirror of `FunctionKey`: identifies a function by
`(filename, lineno, funcname)`, with the dataclass defaults. -/
structure FunctionKey where
  filename : String := ""
  lineno : Int := -1
  funcname : String := ""
deriving DecidableEq, Repr, Inhabited

/-- Mirror of `Record`: one parsed trace line. -/
structure Record where
  idx : Nat
  stamp_us : Int
  pid : Int
  cmd : String
  level : Int
  lineno : Int
  source : String
  funcname : String
  spent_us : Int := -1
deriving DecidableEq, Repr, Inhabited

/-- Mirror of `Record.function`: `FunctionKey(self.source, self.lineno, self.funcname)`. -/
def Record.function (r : Record) : FunctionKey :=
  { filename := r.source, lineno := r.lineno, funcname := r.funcname }

/-- Mirror of `Records.sum_spent_us`: `sum(x.spent_us for x in self)`. -/
def sum_spent_us (rs : List Record) : Int :=
  rs.foldl (fun acc r => acc + r.spent_us) 0

/-- Stable insertion of a record in front of the first element with an
`idx` that is not smaller; helper of `sortRecords`. -/
def insertByIdx (r : Record) : List Record → List Record
  | [] => [r]
  | x :: t => if x.idx < r.idx then x :: insertByIdx r t else r :: x :: t

/-- Mirror of the sort in `Analyzer.read`:
`sorted(..., key=lambda x: x.idx)` — a stable sort by original line index. -/
def sortRecords : List Record → List Record
  | [] => []
  | x :: t => insertByIdx x (sortRecords t)

/-- Mirror of `Analyzer.calculate_records_spent_time`:
```
for i in range(len(self.records) - 1):
    self.records[i].spent_us = self.records[i+1].stamp_us - self.records[i].stamp_us
self.records.pop()
```
Every record but the last gets `spent_us := next.stamp_us - this.stamp_us`
and the last record is removed.  `records.pop()` on an empty list raises
an uncaught `IndexError`, modelled as `none`. -/
def calculate_records_spent_time (rs : List Record) : Option (List Record) :=
  match rs with
  | [] => none
  | _ :: _ =>
    some (List.zipWith
      (fun a b => { a with spent_us := b.stamp_us - a.stamp_us }) rs rs.tail)

/-- Mirror of `CallgraphNode`: a call-tree node owning an ordered list of
children, each either a leaf `Record` or a nested `CallgraphNode`.
The parent back-pointer of the Python class is not stored; the builder
models it with an explicit stack of open frames. -/
inductive CGNode where
  | mk (function : FunctionKey) (records : List (Record ⊕ CGNode))
deriving Repr

/-- Projection of the `function` field of `CallgraphNode`. -/
def CGNode.function : CGNode → FunctionKey
  | .mk f _ => f

/-- Projection of the `records` field of `CallgraphNode`. -/
def CGNode.records : CGNode → List (Record ⊕ CGNode)
  | .mk _ rs => rs

mutual
/-- Mirror of `CallgraphNode.inlinetime`:
`sum(rr.spent_us for rr in self.records if isinstance(rr, Record))`. -/
def CGNode.inlinetime : CGNode → Int
  | .mk _ rs => inlineEntries rs
/-- Sum of `spent_us` over the leaf records of an entry list. -/
def inlineEntries : List (Record ⊕ CGNode) → Int
  | [] => 0
  | .inl r :: t => r.spent_us + inlineEntries t
  | .inr _ :: t => inlineEntries t
end

mutual
/-- Mirror of `CallgraphNode.totaltime = inlinetime + childtime`, with
`childtime = sum(rr.totaltime for rr in self.records if isinstance(rr, CallgraphNode))`.
Computed here in one recursive pass. -/
def CGNode.totaltime : CGNode → Int
  | .mk _ rs => totalEntries rs
/-- Sum of `spent_us` of leaf records plus `totaltime` of nested nodes. -/
def totalEntries : List (Record ⊕ CGNode) → Int
  | [] => 0
  | .inl r :: t => r.spent_us + totalEntries t
  | .inr n :: t => CGNode.totaltime n + totalEntries t
end

/-- Mirror of `CallgraphNode.childtime`:
`sum(rr.totaltime for rr in self.records if isinstance(rr, CallgraphNode))`. -/
def CGNode.childtime (n : CGNode) : Int :=
  (n.records.map (fun e => match e with
    | .inl _ => 0
    | .inr m => m.totaltime)).foldl (fun a b => a + b) 0

/-- One open call frame of the Call-Tree Builder: the `function` key of the
`CallgraphNode` under construction and the children accumulated so far.
The stack of frames models the chain of `parent` pointers from `curnode`
up to the root in `Analyzer.get_callgraph`. -/
structure Frame where
  function : FunctionKey
  entries : List (Record ⊕ CGNode)
deriving Repr

/-- Walking one `parent` link: the top frame is closed into a
`CallgraphNode` and becomes the last child of the frame below (in the
Python original the child was already linked into `parent.records` at
creation time; the zipper performs the linking when the cursor leaves the
child).  A walk above the synthetic root — `assert curnode.parent` with
`curnode.parent is None` — is `none`. -/
def popFrame : List Frame → Option (List Frame)
  | top :: below :: rest =>
    some ({ below with
            entries := below.entries ++ [Sum.inr (CGNode.mk top.function top.entries)] } :: rest)
  | _ => none

/-- Mirror of `for i in range(curlevel - rr.level): assert curnode.parent; curnode = curnode.parent`. -/
def popN : Nat → List Frame → Option (List Frame)
  | 0, st => some st
  | n + 1, st => (popFrame st).bind (popN n)

/-- Mirror of `curnode.records.append(rr)`: the record becomes the last
child of the cursor node (the top frame). -/
def appendTop (rr : Record) : List Frame → List Frame
  | [] => []
  | f :: rest => { f with entries := f.entries ++ [Sum.inl rr] } :: rest

/-- One iteration of the loop body of `Analyzer.get_callgraph`:
```
if rr.level > curlevel:
    newnode = CallgraphNode(rr.function(), parent=curnode)
    curnode.records.append(newnode)
    curnode = newnode
elif rr.level < curlevel:
    for i in range(curlevel - rr.level):
        assert curnode.parent
        curnode = curnode.parent
curlevel = rr.level
curnode.records.append(rr)
```
State is the frame stack (cursor chain) plus `curlevel`. -/
def stepBuilder (st : List Frame × Int) (rr : Record) : Option (List Frame × Int) :=
  let stack := st.1
  let curlevel := st.2
  if rr.level > curlevel then
    some (appendTop rr ({ function := rr.function, entries := [] } :: stack), rr.level)
  else if rr.level < curlevel then
    (popN (curlevel - rr.level).toNat stack).map (fun stack2 => (appendTop rr stack2, rr.level))
  else
    some (appendTop rr stack, rr.level)

/-- Folding the remaining open frames at the end of the record loop: in
the Python original every created node is already a child of its parent,
so the finished tree is just the root; the zipper recovers it by closing
every still-open frame into its parent. -/
def closeAll : Frame → List Frame → CGNode
  | f, [] => CGNode.mk f.function f.entries
  | f, g :: rest =>
    closeAll { g with entries := g.entries ++ [Sum.inr (CGNode.mk f.function f.entries)] } rest

/-- Mirror of `Analyzer.get_callgraph` without a function filter
(`args.filterfunction is None`): start at a synthetic root
`CallgraphNode()` with `curlevel = 1` and process the records in
sequence order.  A failed `assert curnode.parent` is `none`. -/
def get_callgraph (records : List Record) : Option CGNode :=
  (records.foldlM stepBuilder ([{ function := {}, entries := [] }], 1)).map
    (fun st => match st.1 with
      | [] => CGNode.mk {} []
      | f :: rest => closeAll f rest)

/-- Check used to state the amended C5: every record's level is at least 1
and no record's level exceeds the previous level (initially 1) by more
than one.  `levelsOk cur rs` checks `rs` starting from current level `cur`. -/
def levelsOk : Int → List Record → Bool
  | _, [] => true
  | cur, r :: rest => (decide (1 ≤ r.level) && decide (r.level ≤ cur + 1)) && levelsOk r.level rest

/-- Mirror of `CmdStats`: statistics of one command text. -/
structure CmdStats where
  cmd : String
  callcount : Nat := 0
  totaltime : Int := 0
deriving DecidableEq, Repr, Inhabited

/-- Lookup in an association list modelling a Python `dict`
(first — and for well-formed dicts only — binding of the key). -/
def lookupA {K V : Type} [DecidableEq K] : List (K × V) → K → Option V
  | [], _ => none
  | (k, v) :: t, key => if k = key then some v else lookupA t key

/-- Replace the value of a present key in place, or append the binding at
the end when the key is absent — how a CPython dict stores a value. -/
def setA {K V : Type} [DecidableEq K] : List (K × V) → K → V → List (K × V)
  | [], key, v => [(key, v)]
  | (k, w) :: t, key, v => if k = key then (k, v) :: t else (k, w) :: setA t key v

/-- Mirror of `x = d.setdefault(key, dflt)` followed by an in-place update
of `x` with `f`: if the key is present its value is updated in place,
otherwise `f dflt` is appended at the end. -/
def upsertA {K V : Type} [DecidableEq K] (l : List (K × V)) (key : K) (dflt : V) (f : V → V) :
    List (K × V) :=
  match lookupA l key with
  | some v => setA l key (f v)
  | none => l ++ [(key, f dflt)]

/-- Update the value of a key that is present; keys that are absent are
left untouched (used where the Python original mutates through an alias
that is known to be in the dict). -/
def modifyA {K V : Type} [DecidableEq K] (l : List (K × V)) (key : K) (f : V → V) :
    List (K × V) :=
  match lookupA l key with
  | some v => setA l key (f v)
  | none => l

/-- Keys of an association list, in order. -/
def keysA {K V : Type} (l : List (K × V)) : List K := l.map Prod.fst

/-- Mirror of `CallstatsNode`: aggregated statistics of one function.
`children` maps callee `FunctionKey`s to their statistics, `cmdstats`
maps command text to `CmdStats`. -/
inductive CallstatsNode where
  | mk (function : FunctionKey) (primitivecallcount : Nat) (recursivecallcount : Nat)
       (children : List (FunctionKey × CallstatsNode))
       (cmdstats : List (String × CmdStats))
deriving Repr

/-- Projection of the `function` field of `CallstatsNode`. -/
def CallstatsNode.function : CallstatsNode → FunctionKey
  | .mk f _ _ _ _ => f

/-- Projection of the `primitivecallcount` field of `CallstatsNode`. -/
def CallstatsNode.primitivecallcount : CallstatsNode → Nat
  | .mk _ p _ _ _ => p

/-- Projection of the `recursivecallcount` field of `CallstatsNode`. -/
def CallstatsNode.recursivecallcount : CallstatsNode → Nat
  | .mk _ _ r _ _ => r

/-- Projection of the `children` field of `CallstatsNode`. -/
def CallstatsNode.children : CallstatsNode → List (FunctionKey × CallstatsNode)
  | .mk _ _ _ ch _ => ch

/-- Projection of the `cmdstats` field of `CallstatsNode`. -/
def CallstatsNode.cmdstats : CallstatsNode → List (String × CmdStats)
  | .mk _ _ _ _ cs => cs

/-- Mirror of the constructor call `CallstatsNode(k)`: all counters at the
dataclass defaults. -/
def CallstatsNode.ofKey (k : FunctionKey) : CallstatsNode := .mk k 0 0 [] []

/-- Mirror of `CallstatsNode.add_record`:
```
s = self.cmdstats.setdefault(r.cmd, CmdStats(r.cmd))
s.callcount += 1
s.totaltime += r.spent_us
``` -/
def CallstatsNode.add_record : CallstatsNode → Record → CallstatsNode
  | .mk f p r ch cs, rec =>
    .mk f p r ch (upsertA cs rec.cmd { cmd := rec.cmd }
      (fun s => { s with callcount := s.callcount + 1, totaltime := s.totaltime + rec.spent_us }))

/-- One step of the cmdstats loop of `CallstatsNode.merge`:
`s = self.cmdstats.setdefault(k, CmdStats(k)); s.callcount += v.callcount; s.totaltime += v.totaltime`. -/
def mergeCmdstats (self : List (String × CmdStats)) : List (String × CmdStats) → List (String × CmdStats)
  | [] => self
  | (k, v) :: rest =>
    mergeCmdstats
      (upsertA self k { cmd := k }
        (fun s => { s with callcount := s.callcount + v.callcount,
                           totaltime := s.totaltime + v.totaltime }))
      rest

mutual
/-- Mirror of `CallstatsNode.merge` (the `assert self.function == o.function`
precondition is carried as a hypothesis by the theorems that need it):
```
self.primitivecallcount += o.primitivecallcount
self.recursivecallcount += o.recursivecallcount
for k, v in o.cmdstats.items(): ...add...
for k, v in o.children.items():
    self.children.setdefault(k, CallstatsNode(k)).merge(v)
``` -/
def CallstatsNode.merge : CallstatsNode → CallstatsNode → CallstatsNode
  | .mk f p r ch cs, .mk _ p2 r2 ch2 cs2 =>
    .mk f (p + p2) (r + r2) (mergeChildren ch ch2) (mergeCmdstats cs cs2)
/-- The children loop of `CallstatsNode.merge`: each binding of the other
node is merged into the matching binding of `self`, a missing key being
first inserted as `CallstatsNode(k)` at the end. -/
def mergeChildren (self : List (FunctionKey × CallstatsNode)) :
    List (FunctionKey × CallstatsNode) → List (FunctionKey × CallstatsNode)
  | [] => self
  | (k, v) :: rest =>
    match lookupA self k with
    | some cur => mergeChildren (setA self k (CallstatsNode.merge cur v)) rest
    | none => mergeChildren (self ++ [(k, CallstatsNode.merge (CallstatsNode.ofKey k) v)]) rest
end

/-- Mirror of `CallstatsNode.inlinetime`:
`sum(s.totaltime for s in self.cmdstats.values())`. -/
def CallstatsNode.inlinetime (n : CallstatsNode) : Int :=
  (n.cmdstats.map (fun kv => kv.2.totaltime)).foldl (fun a b => a + b) 0

mutual
/-- Mirror of `CallstatsNode.totaltime = inlinetime + childtime`, where
`childtime = sum(s.totaltime for s in self.children.values())` recurses
through the children's own `totaltime`. -/
def CallstatsNode.totaltime : CallstatsNode → Int
  | .mk f p r ch cs => (CallstatsNode.mk f p r ch cs).inlinetime + childrenTotal ch
/-- Sum of `totaltime` over the values of a children map. -/
def childrenTotal : List (FunctionKey × CallstatsNode) → Int
  | [] => 0
  | (_, v) :: rest => CallstatsNode.totaltime v + childrenTotal rest
end

/-- Mirror of `CallstatsNode.childtime`:
`sum(s.totaltime for s in self.children.values())`. -/
def CallstatsNode.childtime (n : CallstatsNode) : Int := childrenTotal n.children

/-- Mirror of `CallstatsNode.callcount = primitivecallcount + recursivecallcount`. -/
def CallstatsNode.callcount (n : CallstatsNode) : Nat :=
  n.primitivecallcount + n.recursivecallcount

/-- Increment of `ret.recursivecallcount += 1` in `traverse_for_callstats`. -/
def incRecursive : CallstatsNode → CallstatsNode
  | .mk f p r ch cs => .mk f p (r + 1) ch cs

/-- Increment of `x.primitivecallcount += 1` in `traverse_for_callstats`. -/
def incPrimitive : CallstatsNode → CallstatsNode
  | .mk f p r ch cs => .mk f (p + 1) r ch cs

/-- The different-identity branch of `traverse_for_callstats`:
```
x = ret.children.setdefault(rr.function, CallstatsNode(rr.function))
x.merge(traverse_for_callstats(rr))
x.primitivecallcount += 1
```
`sub` is the already-computed `traverse_for_callstats(rr)`. -/
def addChildCall (ret : CallstatsNode) (k : FunctionKey) (sub : CallstatsNode) : CallstatsNode :=
  match ret with
  | .mk f p r ch cs =>
    .mk f p r (upsertA ch k (CallstatsNode.ofKey k) (fun x => incPrimitive (x.merge sub))) cs

mutual
/-- Mirror of `traverse_for_callstats` in `Analyzer.get_callstats`:
```
ret = CallstatsNode(node.function)
for rr in node.records:
    if isinstance(rr, Record): ret.add_record(rr)
    elif rr.function == node.function:
        ret.merge(traverse_for_callstats(rr)); ret.recursivecallcount += 1
    else:
        x = ret.children.setdefault(rr.function, CallstatsNode(rr.function))
        x.merge(traverse_for_callstats(rr)); x.primitivecallcount += 1
return ret
``` -/
def traverse_for_callstats : CGNode → CallstatsNode
  | .mk f es => traverseEntries f (CallstatsNode.ofKey f) es
/-- The loop of `traverse_for_callstats` over `node.records`, with the
accumulated `ret`. -/
def traverseEntries (f : FunctionKey) (ret : CallstatsNode) :
    List (Record ⊕ CGNode) → CallstatsNode
  | [] => ret
  | .inl r :: rest => traverseEntries f (ret.add_record r) rest
  | .inr n :: rest =>
    if n.function = f then
      traverseEntries f (incRecursive (ret.merge (traverse_for_callstats n))) rest
    else
      traverseEntries f (addChildCall ret n.function (traverse_for_callstats n)) rest
end

/-- Mirror of `us2s`: `us / 1000000`, microseconds to seconds.  Python
computes this in floating point; the embedding uses exact rationals. -/
def us2s (us : Int) : ℚ := (us : ℚ) / 1000000

/-- Mirror of `Pstatsnocallers`: one caller-attribution entry. -/
structure Pstatsnocallers where
  callcount : Nat := 0
  primitivecallcount : Nat := 0
  inlinetime : ℚ := 0
  totaltime : ℚ := 0
deriving DecidableEq, Repr, Inhabited

/-- Mirror of `Pstats`: per-function totals with the callers map. -/
structure Pstats where
  callcount : Nat := 0
  primitivecallcount : Nat := 0
  inlinetime : ℚ := 0
  totaltime : ℚ := 0
  callers : List (FunctionKey × Pstatsnocallers) := []
deriving DecidableEq, Repr, Inhabited

/-- The per-function accumulator `statsroot` of `create_python_pstats_file`. -/
def StatsRoot : Type := List (FunctionKey × Pstats)

/-- The head of `fillstats`:
```
nodestats = statsroot.setdefault(node.function, Pstats())
nodestats.callcount += node.callcount
nodestats.primitivecallcount += node.primitivecallcount
nodestats.totaltime += us2s(node.totaltime)
nodestats.inlinetime += us2s(node.inlinetime)
``` -/
def addNodeStats (sr : StatsRoot) (node : CallstatsNode) : StatsRoot :=
  upsertA sr node.function {}
    (fun ns => { ns with
      callcount := ns.callcount + node.callcount,
      primitivecallcount := ns.primitivecallcount + node.primitivecallcount,
      totaltime := ns.totaltime + us2s node.totaltime,
      inlinetime := ns.inlinetime + us2s node.inlinetime })

/-- The caller-attribution update of `fillstats`:
```
childstats = statsroot.setdefault(child.function, Pstats()).callers.setdefault(node.function, Pstatsnocallers())
childstats.callcount += 1
childstats.primitivecallcount += 1
childstats.inlinetime += us2s(child.inlinetime)
childstats.totaltime += us2s(child.totaltime)
```
`cf` is `child.function`, `pf` is `node.function`. -/
def addCaller (sr : StatsRoot) (cf pf : FunctionKey) (child : CallstatsNode) : StatsRoot :=
  upsertA sr cf {} (fun ps =>
    { ps with callers := upsertA ps.callers pf {} (fun c =>
        { c with
          callcount := c.callcount + 1,
          primitivecallcount := c.primitivecallcount + 1,
          inlinetime := c.inlinetime + us2s child.inlinetime,
          totaltime := c.totaltime + us2s child.totaltime }) })

/-- The double-counting correction of `fillstats`:
`if child.function == node.function: nodestats.totaltime -= us2s(child.totaltime)`.
`nodestats` is an alias of the entry at `pf`, which `addNodeStats` has
made present, so `modifyA` finds it. -/
def subtractSelfChild (sr : StatsRoot) (pf : FunctionKey) (child : CallstatsNode) : StatsRoot :=
  modifyA sr pf (fun ns => { ns with totaltime := ns.totaltime - us2s child.totaltime })

mutual
/-- Mirror of `fillstats` in `create_python_pstats_file`: accumulate the
node's totals, then walk the children. -/
def fillstats (sr : StatsRoot) (node : CallstatsNode) : StatsRoot :=
  match node with
  | .mk f p r ch cs =>
    fillChildren (addNodeStats sr (.mk f p r ch cs)) f ch
termination_by (sizeOf node, 0)

/-- The children loop of `fillstats`. -/
def fillChildren (sr : StatsRoot) (pf : FunctionKey)
    (l : List (FunctionKey × CallstatsNode)) : StatsRoot :=
  match l with
  | [] => sr
  | (_, child) :: rest => fillChildren (fillChildEdge sr pf child) pf rest
termination_by (sizeOf l, 2)

/-- Processing of one parent-to-child edge in the `fillstats` walk:
```
fillstats(child)
childstats = ...  # addCaller
if child.function == node.function:
    nodestats.totaltime -= us2s(child.totaltime)
``` -/
def fillChildEdge (sr : StatsRoot) (pf : FunctionKey) (child : CallstatsNode) : StatsRoot :=
  let sr1 := addCaller (fillstats sr child) child.function pf child
  if child.function = pf then subtractSelfChild sr1 pf child else sr1
termination_by (sizeOf child, 1)
end

/-- Sum of `totaltime` over all frames of the builder stack: the time
already recorded somewhere in the tree under construction. -/
def stackTotal : List Frame → Int
  | [] => 0
  | f :: rest => totalEntries f.entries + stackTotal rest

mutual
/-- Well-formedness of aggregator output: no node's `children` map binds
the node's own `function` key (same-identity calls are folded into the
node itself), and every binding's value carries the binding's key as its
`function`. -/
def csWF : CallstatsNode → Bool
  | .mk f _ _ ch _ => (lookupA ch f).isNone && csWFchildren ch
/-- The `children`-map part of `csWF`. -/
def csWFchildren : List (FunctionKey × CallstatsNode) → Bool
  | [] => true
  | (k, v) :: rest => decide (v.function = k) && csWF v && csWFchildren rest
end

mutual
/-- The keys of the `children` and `cmdstats` maps are pairwise distinct,
recursively — automatic for Python dicts, an explicit side condition for
the association lists of the embedding. -/
def dictKeysOk : CallstatsNode → Bool
  | .mk _ _ _ ch cs =>
    decide ((keysA ch).Nodup) && decide ((keysA cs).Nodup) && dictKeysOkChildren ch
/-- The recursion of `dictKeysOk` over the children. -/
def dictKeysOkChildren : List (FunctionKey × CallstatsNode) → Bool
  | [] => true
  | (_, v) :: rest => dictKeysOk v && dictKeysOkChildren rest
end

mutual
/-- Number of call-tree subtrees (the node itself included) whose root
carries the function key `k`. -/
def countSubtrees (k : FunctionKey) : CGNode → Nat
  | .mk f es => (if f = k then 1 else 0) + countSubtreesEntries k es
/-- Sum of `countSubtrees` over the node children of an entry list. -/
def countSubtreesEntries (k : FunctionKey) : List (Record ⊕ CGNode) → Nat
  | [] => 0
  | .inl _ :: rest => countSubtreesEntries k rest
  | .inr n :: rest => countSubtrees k n + countSubtreesEntries k rest
end

mutual
/-- Sum of `callcount` over every `CallstatsNode` with function key `k`
in a stats tree (the root included). -/
def sumCallcounts (k : FunctionKey) : CallstatsNode → Nat
  | .mk f p r ch _ => (if f = k then p + r else 0) + sumCallcountsChildren k ch
/-- Sum of `sumCallcounts` over the values of a children map. -/
def sumCallcountsChildren (k : FunctionKey) : List (FunctionKey × CallstatsNode) → Nat
  | [] => 0
  | (_, v) :: rest => sumCallcounts k v + sumCallcountsChildren k rest
end

mutual
/-- `m` is one of the `CallstatsNode`s of the stats tree `n` (the root
or any value reachable through `children`). -/
def OccursIn (m : CallstatsNode) : CallstatsNode → Prop
  | .mk f p r ch cs => m = .mk f p r ch cs ∨ OccursInChildren m ch
/-- The recursion of `OccursIn` over a children map. -/
def OccursInChildren (m : CallstatsNode) : List (FunctionKey × CallstatsNode) → Prop
  | [] => False
  | (_, v) :: rest => OccursIn m v ∨ OccursInChildren m rest
end

/-- Doubling of one command-statistics entry. -/
def dblCmd (s : CmdStats) : CmdStats :=
  { cmd := s.cmd, callcount := 2 * s.callcount, totaltime := 2 * s.totaltime }

mutual
/-- Doubling of every counter and every time field of a stats tree — the
expected effect of merging a node with an identical copy of itself. -/
def csDouble : CallstatsNode → CallstatsNode
  | .mk f p r ch cs =>
    .mk f (2 * p) (2 * r) (csDoubleChildren ch)
      (cs.map (fun kv => (kv.1, dblCmd kv.2)))
/-- The recursion of `csDouble` over a children map. -/
def csDoubleChildren : List (FunctionKey × CallstatsNode) → List (FunctionKey × CallstatsNode)
  | [] => []
  | (k, v) :: rest => (k, csDouble v) :: csDoubleChildren rest
end

/-- Generic form of the two update loops of `CallstatsNode.merge`: fold a
list of bindings into `self`, combining with `comb` and defaulting a
missing key with `dflt`.  `mergeChildren` and `mergeCmdstats` are
instances (proved below). -/
def foldUpsert {K V : Type} [DecidableEq K] (comb : V → V → V) (dflt : K → V)
    (self : List (K × V)) : List (K × V) → List (K × V)
  | [] => self
  | (k, v) :: rest =>
    foldUpsert comb dflt
      (match lookupA self k with
        | some cur => setA self k (comb cur v)
        | none => self ++ [(k, comb (dflt k) v)]) rest

/-- The combine function of the `cmdstats` loop of `CallstatsNode.merge`. -/
def combCmd (s v : CmdStats) : CmdStats :=
  { s with callcount := s.callcount + v.callcount, totaltime := s.totaltime + v.totaltime }

mutual
/-- The `fillstats` walk with the same-identity subtraction branch
removed (the `if child.function == node.function` correction of
`create_python_pstats_file` is dropped, everything else is identical).
Used to state that on aggregator output the branch is never taken. -/
def fillstatsNoSub (sr : StatsRoot) (node : CallstatsNode) : StatsRoot :=
  match node with
  | .mk f p r ch cs =>
    fillChildrenNoSub (addNodeStats sr (.mk f p r ch cs)) f ch
termination_by (sizeOf node, 0)

/-- The children loop of `fillstatsNoSub`. -/
def fillChildrenNoSub (sr : StatsRoot) (pf : FunctionKey)
    (l : List (FunctionKey × CallstatsNode)) : StatsRoot :=
  match l with
  | [] => sr
  | (_, child) :: rest => fillChildrenNoSub (fillChildEdgeNoSub sr pf child) pf rest
termination_by (sizeOf l, 2)

/-- One edge of the `fillstatsNoSub` walk: recursion plus the caller
attribution, without the subtraction. -/
def fillChildEdgeNoSub (sr : StatsRoot) (pf : FunctionKey) (child : CallstatsNode) : StatsRoot :=
  addCaller (fillstatsNoSub sr child) child.function pf child
termination_by (sizeOf child, 1)
end

/-- Shorthand for building the example records of the theorems below:
`exRec idx stamp level source lineno funcname cmd` (pid is arbitrary). -/
def exRec (i : Nat) (stamp lvl : Int) (src : String) (ln : Int) (fn cmd : String) : Record :=
  { idx := i, stamp_us := stamp, pid := 7, cmd := cmd, level := lvl,
    lineno := ln, source := src, funcname := fn }

/-- A record sequence whose levels are all at least 1 but whose level
jumps from 1 to 5 in one step and back to 1: the pop loop then needs 4
parent links while only 1 is available. -/
def rsC5 : List Record :=
  [exRec 0 0 1 "a" 1 "" "c0", exRec 1 10 5 "a" 2 "" "c1", exRec 2 20 1 "a" 3 "" "c2"]

/-- The function identity used by the self-recursion examples. -/
def fk1 : FunctionKey := { filename := "s", lineno := 5, funcname := "f" }

/-- A trace whose level sequence `[1, 2, 3, 2]` enters the same function
identity `fk1` at levels 2 and 3: the function calls itself once. -/
def rsC2 : List Record :=
  [exRec 0 0 1 "" (-1) "" "top",
   exRec 1 1 2 "s" 5 "f" "c1",
   exRec 2 2 3 "s" 5 "f" "c2",
   exRec 3 3 2 "s" 9 "f" "c3"]

/-- The call tree of `rsC2` (the builder succeeds on it). -/
def cgC2 : CGNode := (get_callgraph rsC2).getD (CGNode.mk {} [])

/-- The spec's single-command example: two records at level 1 with
timestamps 1000000 and 1000500. -/
def rsC6 : List Record :=
  [exRec 0 1000000 1 "" 3 "" "cmd1", exRec 1 1000500 1 "" 4 "" "cmd2"]

/-- The output of the Record Sequencer on `rsC6`. -/
def resC6 : List Record :=
  (calculate_records_spent_time (sortRecords rsC6)).getD []

/-- Function keys of the two-caller example of C9: `main` calls `a` and
`b`; each of `a` and `b` calls `k` once. -/
def fkA : FunctionKey := { filename := "t", lineno := 1, funcname := "a" }

/-- Function key of caller `b` in the C9 example. -/
def fkB : FunctionKey := { filename := "t", lineno := 2, funcname := "b" }

/-- Function key of the doubly-called function `k` in the C9 example. -/
def fkK : FunctionKey := { filename := "t", lineno := 3, funcname := "k" }

/-- A call tree in which `fkK` roots two distinct subtrees (one under
`fkA`, one under `fkB`). -/
def cgC9 : CGNode :=
  CGNode.mk {}
    [Sum.inr (CGNode.mk fkA [Sum.inr (CGNode.mk fkK [])]),
     Sum.inr (CGNode.mk fkB [Sum.inr (CGNode.mk fkK [])])]

/-- The aggregated stats node for `fkK` under caller `fkA` in `cgC9`. -/
def m9 : CallstatsNode :=
  (lookupA ((lookupA (traverse_for_callstats cgC9).children fkA).getD
      (CallstatsNode.ofKey fkA)).children fkK).getD (CallstatsNode.ofKey fkK)

/-! Basic lemmas. -/

theorem zipWith_tail_get {α β : Type} (f : α → α → β) :
    ∀ (l : List α) (i : Nat) (a b : α), l.get? i = some a → l.get? (i + 1) = some b →
      (List.zipWith f l l.tail).get? i = some (f a b) := by
  intro l
  induction l with
  | nil => intro i a b ha; simp at ha
  | cons x t ih =>
    intro i a b ha hb
    cases t with
    | nil =>
      cases i with
      | zero => simp at hb
      | succ j => simp at hb
    | cons y t2 =>
      cases i with
      | zero =>
        simp at ha hb
        subst ha; subst hb
        simp [List.zipWith]
      | succ j =>
        simp only [List.get?] at ha hb
        have := ih j a b ha hb
        simpa [List.zipWith] using this

theorem sum_spent_shift (rs : List Record) :
    ∀ a : Int, rs.foldl (fun acc r => acc + r.spent_us) a = a + sum_spent_us rs := by
  induction rs with
  | nil => intro a; simp [sum_spent_us]
  | cons r t ih =>
    intro a
    simp only [sum_spent_us, List.foldl] at *
    rw [ih, ih (0 + r.spent_us)]
    ring

theorem sum_spent_cons (r : Record) (rs : List Record) :
    sum_spent_us (r :: rs) = r.spent_us + sum_spent_us rs := by
  show List.foldl (fun acc x => acc + x.spent_us) (0 + r.spent_us) rs
      = r.spent_us + sum_spent_us rs
  rw [sum_spent_shift]
  ring

/-! The Record Sequencer (claims C6 and C7). -/

/-- Claim C6: after the Record Sequencer sorts the parsed records by
original line index, every record except the last has `spent_us` equal to
the next record's timestamp minus its own (`next.stamp_us - this.stamp_us`,
all other fields unchanged), and the last record is removed from the
sequence. -/
theorem C6_sequencer_deltas (rs0 : List Record) (res : List Record)
    (h : calculate_records_spent_time (sortRecords rs0) = some res) :
    res.length + 1 = (sortRecords rs0).length ∧
    ∀ (i : Nat) (a b : Record), (sortRecords rs0).get? i = some a →
      (sortRecords rs0).get? (i + 1) = some b →
      res.get? i = some { a with spent_us := b.stamp_us - a.stamp_us } := by
  cases hs : sortRecords rs0 with
  | nil => rw [hs] at h; simp [calculate_records_spent_time] at h
  | cons x t =>
    rw [hs] at h
    simp only [calculate_records_spent_time] at h
    injection h with h
    constructor
    · rw [← h]
      simp only [List.length_zipWith, List.tail_cons, List.length_cons]
      omega
    · intro i a b ha hb
      rw [← h]
      exact zipWith_tail_get _ (x :: t) i a b ha hb

/-- Claim C7 counterexample: with zero valid records the Record Sequencer
does not report an empty trace — `records.pop()` raises an uncaught
`IndexError` (modelled as `none`), i.e. the run crashes. -/
theorem C7_counterexample :
    calculate_records_spent_time ([] : List Record) = none ∧
    ([] : List Record).length < 2 := by
  exact ⟨rfl, by decide⟩

/-- Claim C7 amended: with zero records the sequencer fails with an
uncaught exception (`pop` from an empty list, modelled as `none`); with
exactly one record it silently yields the empty record sequence and the
pipeline continues — no empty-trace condition is reported in either case. -/
theorem C7_amended_behaviour :
    calculate_records_spent_time ([] : List Record) = none ∧
    ∀ r : Record, calculate_records_spent_time [r] = some [] := by
  exact ⟨rfl, fun r => rfl⟩

/-! The Call-Tree Builder step (claims C4 and C5). -/

theorem popFrame_length (st st2 : List Frame) (h : popFrame st = some st2) :
    st2.length + 1 = st.length := by
  match st with
  | [] => simp [popFrame] at h
  | [f] => simp [popFrame] at h
  | top :: below :: rest =>
    simp only [popFrame] at h
    injection h with h
    rw [← h]
    simp

theorem popN_length (n : Nat) : ∀ (st st2 : List Frame), popN n st = some st2 →
    st2.length + n = st.length := by
  induction n with
  | zero =>
    intro st st2 h
    simp only [popN] at h
    injection h with h
    rw [h]
    omega
  | succ m ih =>
    intro st st2 h
    simp only [popN] at h
    cases hp : popFrame st with
    | none =>
      rw [hp] at h
      exact Option.noConfusion h
    | some st1 =>
      rw [hp] at h
      rw [show Option.bind (some st1) (popN m) = popN m st1 from rfl] at h
      have h1 := popFrame_length st st1 hp
      have h2 := ih st1 st2 h
      omega

/-- Claim C4: for each record processed by the Call-Tree Builder, if
`record.level > currentLevel` exactly one new child node keyed by the
record's function identity is created, the cursor descends into it and
the record becomes its first leaf (this also holds when the level jumps
by more than 1); if `record.level < currentLevel` the cursor walks up
exactly `currentLevel - record.level` parent links (shrinking the open
frame stack by exactly that many frames) and the record is then appended
as a leaf child of the node the cursor reached; otherwise the record is
appended as a leaf child of the current node; in every case
`currentLevel` becomes `record.level`. -/
theorem C4_builder_step (st : List Frame) (l : Int) (rr : Record) :
    (rr.level > l →
      stepBuilder (st, l) rr =
        some ({ function := rr.function, entries := [Sum.inl rr] } :: st, rr.level)) ∧
    (rr.level < l →
      (∀ st2, popN (l - rr.level).toNat st = some st2 →
        stepBuilder (st, l) rr = some (appendTop rr st2, rr.level) ∧
        st2.length + (l - rr.level).toNat = st.length) ∧
      (popN (l - rr.level).toNat st = none → stepBuilder (st, l) rr = none)) ∧
    (rr.level = l → ∀ f rest, st = f :: rest →
      stepBuilder (st, l) rr =
        some ({ f with entries := f.entries ++ [Sum.inl rr] } :: rest, rr.level)) := by
  refine ⟨?_, ?_, ?_⟩
  · intro hgt
    simp [stepBuilder, hgt, appendTop]
  · intro hlt
    constructor
    · intro st2 hpop
      constructor
      · simp [stepBuilder, hlt, not_lt.mpr (le_of_lt hlt), hpop]
      · exact popN_length _ st st2 hpop
    · intro hpop
      simp [stepBuilder, hlt, not_lt.mpr (le_of_lt hlt), hpop]
  · intro heq f rest hst
    subst hst
    simp [stepBuilder, heq, appendTop]

/-- Claim C5 counterexample: on `rsC5` every record's level is at least 1
(none is below the root level), yet the builder attempts to walk above
the synthetic root and the run fails (`get_callgraph` returns no tree):
the claimed "only if some level < 1" condition does not hold. -/
theorem C5_counterexample :
    get_callgraph rsC5 = none ∧ rsC5.all (fun r => decide (1 ≤ r.level)) = true := by
  constructor
  · rfl
  · decide

/-! Time conservation through the builder (claim C1). -/


theorem totalEntries_append_inl (es : List (Record ⊕ CGNode)) (r : Record) :
    totalEntries (es ++ [Sum.inl r]) = totalEntries es + r.spent_us := by
  induction es with
  | nil => show r.spent_us + 0 = 0 + r.spent_us; ring
  | cons e t ih =>
    cases e with
    | inl x =>
      rw [List.cons_append]
      show x.spent_us + totalEntries (t ++ [Sum.inl r])
        = x.spent_us + totalEntries t + r.spent_us
      rw [ih]; ring
    | inr n =>
      rw [List.cons_append]
      show n.totaltime + totalEntries (t ++ [Sum.inl r])
        = n.totaltime + totalEntries t + r.spent_us
      rw [ih]; ring

theorem totalEntries_append_inr (es : List (Record ⊕ CGNode)) (n : CGNode) :
    totalEntries (es ++ [Sum.inr n]) = totalEntries es + n.totaltime := by
  induction es with
  | nil => show n.totaltime + 0 = 0 + n.totaltime; ring
  | cons e t ih =>
    cases e with
    | inl x =>
      rw [List.cons_append]
      show x.spent_us + totalEntries (t ++ [Sum.inr n])
        = x.spent_us + totalEntries t + n.totaltime
      rw [ih]; ring
    | inr m =>
      rw [List.cons_append]
      show m.totaltime + totalEntries (t ++ [Sum.inr n])
        = m.totaltime + totalEntries t + n.totaltime
      rw [ih]; ring

theorem totaltime_mk (f : FunctionKey) (es : List (Record ⊕ CGNode)) :
    (CGNode.mk f es).totaltime = totalEntries es := rfl

theorem popFrame_stackTotal (st st2 : List Frame) (h : popFrame st = some st2) :
    stackTotal st2 = stackTotal st := by
  match st with
  | [] => simp [popFrame] at h
  | [f] => simp [popFrame] at h
  | top :: below :: rest =>
    simp only [popFrame] at h
    injection h with h
    rw [← h]
    show totalEntries (below.entries ++ [Sum.inr (CGNode.mk top.function top.entries)])
        + stackTotal rest
      = totalEntries top.entries + (totalEntries below.entries + stackTotal rest)
    rw [totalEntries_append_inr, totaltime_mk]
    ring

theorem popFrame_ne_nil (st st2 : List Frame) (h : popFrame st = some st2) :
    st2 ≠ [] := by
  match st with
  | [] => simp [popFrame] at h
  | [f] => simp [popFrame] at h
  | top :: below :: rest =>
    simp only [popFrame] at h
    injection h with h
    rw [← h]
    simp

theorem popN_stackTotal (n : Nat) : ∀ (st st2 : List Frame), popN n st = some st2 →
    stackTotal st2 = stackTotal st := by
  induction n with
  | zero =>
    intro st st2 h
    simp only [popN] at h
    injection h with h
    rw [h]
  | succ m ih =>
    intro st st2 h
    simp only [popN] at h
    cases hp : popFrame st with
    | none =>
      rw [hp] at h
      exact Option.noConfusion h
    | some st1 =>
      rw [hp] at h
      rw [show Option.bind (some st1) (popN m) = popN m st1 from rfl] at h
      rw [ih st1 st2 h, popFrame_stackTotal st st1 hp]

theorem popN_ne_nil (n : Nat) : ∀ (st st2 : List Frame), st ≠ [] → popN n st = some st2 →
    st2 ≠ [] := by
  induction n with
  | zero =>
    intro st st2 hne h
    simp only [popN] at h
    injection h with h
    rw [← h]
    exact hne
  | succ m ih =>
    intro st st2 _ h
    simp only [popN] at h
    cases hp : popFrame st with
    | none =>
      rw [hp] at h
      exact Option.noConfusion h
    | some st1 =>
      rw [hp] at h
      rw [show Option.bind (some st1) (popN m) = popN m st1 from rfl] at h
      exact ih st1 st2 (popFrame_ne_nil st st1 hp) h

theorem appendTop_stackTotal (rr : Record) (f : Frame) (rest : List Frame) :
    stackTotal (appendTop rr (f :: rest)) = stackTotal (f :: rest) + rr.spent_us := by
  show totalEntries (f.entries ++ [Sum.inl rr]) + stackTotal rest
    = totalEntries f.entries + stackTotal rest + rr.spent_us
  rw [totalEntries_append_inl]
  ring

theorem appendTop_ne_nil (rr : Record) (st : List Frame) (h : st ≠ []) :
    appendTop rr st ≠ [] := by
  cases st with
  | nil => exact absurd rfl h
  | cons f rest => simp [appendTop]

theorem stepBuilder_invariant (st : List Frame) (l : Int) (rr : Record)
    (st2 : List Frame) (l2 : Int) (hne : st ≠ [])
    (h : stepBuilder (st, l) rr = some (st2, l2)) :
    st2 ≠ [] ∧ stackTotal st2 = stackTotal st + rr.spent_us := by
  simp only [stepBuilder] at h
  by_cases hgt : rr.level > l
  · rw [if_pos hgt] at h
    injection h with h
    injection h with h1 h2
    subst h1
    constructor
    · exact appendTop_ne_nil _ _ (by simp)
    · rw [appendTop_stackTotal]
      show totalEntries [] + stackTotal st + rr.spent_us = stackTotal st + rr.spent_us
      show (0 : Int) + stackTotal st + rr.spent_us = stackTotal st + rr.spent_us
      ring
  · rw [if_neg hgt] at h
    by_cases hlt : rr.level < l
    · rw [if_pos hlt] at h
      cases hp : popN (l - rr.level).toNat st with
      | none =>
        rw [hp] at h
        exact Option.noConfusion h
      | some st1 =>
        rw [hp] at h
        rw [show Option.map (fun stack2 => (appendTop rr stack2, rr.level)) (some st1)
            = some (appendTop rr st1, rr.level) from rfl] at h
        injection h with h
        injection h with h1 h2
        subst h1
        have hne1 : st1 ≠ [] := popN_ne_nil _ st st1 hne hp
        cases st1 with
        | nil => exact absurd rfl hne1
        | cons f1 rest1 =>
          refine ⟨appendTop_ne_nil _ _ (by simp), ?_⟩
          rw [appendTop_stackTotal, popN_stackTotal _ st _ hp]
    · rw [if_neg hlt] at h
      injection h with h
      injection h with h1 h2
      subst h1
      cases st with
      | nil => exact absurd rfl hne
      | cons f rest =>
        exact ⟨appendTop_ne_nil _ _ (by simp), appendTop_stackTotal _ _ _⟩

theorem buildFold_invariant (rs : List Record) :
    ∀ (st : List Frame) (l : Int) (st2 : List Frame) (l2 : Int), st ≠ [] →
      List.foldlM stepBuilder (st, l) rs = some (st2, l2) →
      st2 ≠ [] ∧ stackTotal st2 = stackTotal st + sum_spent_us rs := by
  induction rs with
  | nil =>
    intro st l st2 l2 hne h
    rw [show List.foldlM stepBuilder (st, l) ([] : List Record) = some (st, l) from rfl] at h
    injection h with h
    injection h with h1 h2
    subst h1
    refine ⟨hne, ?_⟩
    show stackTotal st = stackTotal st + sum_spent_us []
    show stackTotal st = stackTotal st + 0
    ring
  | cons r rest ih =>
    intro st l st2 l2 hne h
    rw [show List.foldlM stepBuilder (st, l) (r :: rest)
        = (stepBuilder (st, l) r).bind (fun s => List.foldlM stepBuilder s rest) from rfl] at h
    cases hs : stepBuilder (st, l) r with
    | none =>
      rw [hs] at h
      exact Option.noConfusion h
    | some s1 =>
      rw [hs] at h
      rw [show Option.bind (some s1) (fun s => List.foldlM stepBuilder s rest)
          = List.foldlM stepBuilder s1 rest from rfl] at h
      obtain ⟨hne1, htot1⟩ := stepBuilder_invariant st l r s1.1 s1.2 hne (by rw [hs])
      obtain ⟨hne2, htot2⟩ := ih s1.1 s1.2 st2 l2 hne1 (by rw [← h])
      refine ⟨hne2, ?_⟩
      rw [htot2, htot1, sum_spent_cons]
      ring

theorem closeAll_totaltime : ∀ (rest : List Frame) (f : Frame),
    (closeAll f rest).totaltime = totalEntries f.entries + stackTotal rest := by
  intro rest
  induction rest with
  | nil =>
    intro f
    show totalEntries f.entries = totalEntries f.entries + 0
    ring
  | cons g t ih =>
    intro f
    show (closeAll { g with
        entries := g.entries ++ [Sum.inr (CGNode.mk f.function f.entries)] } t).totaltime
      = totalEntries f.entries + (totalEntries g.entries + stackTotal t)
    rw [ih]
    show totalEntries (g.entries ++ [Sum.inr (CGNode.mk f.function f.entries)]) + stackTotal t
      = totalEntries f.entries + (totalEntries g.entries + stackTotal t)
    rw [totalEntries_append_inr, totaltime_mk]
    ring

/-- Claim C1: for every trace analyzed without a function filter, when the
Call-Tree Builder completes without error, the root node's `totaltime`
(inline plus child time, recursively) equals the sum of `spent_us` over
all records of the sequenced record list. -/
theorem C1_totaltime_conservation (rs : List Record) (g : CGNode)
    (h : get_callgraph rs = some g) : g.totaltime = sum_spent_us rs := by
  simp only [get_callgraph] at h
  cases hf : List.foldlM stepBuilder ([{ function := {}, entries := [] }], 1) rs with
  | none =>
    rw [hf] at h
    exact Option.noConfusion h
  | some s =>
    obtain ⟨s1, lend⟩ := s
    rw [hf] at h
    injection h with h
    obtain ⟨hne, htot⟩ :=
      buildFold_invariant rs [{ function := {}, entries := [] }] 1 s1 lend (by simp) hf
    cases s1 with
    | nil => exact absurd rfl hne
    | cons f restf =>
      have h2 : closeAll f restf = g := h
      rw [← h2, closeAll_totaltime]
      rw [show stackTotal [{ function := {}, entries := [] }] = 0 from rfl] at htot
      rw [show stackTotal (f :: restf)
          = totalEntries f.entries + stackTotal restf from rfl] at htot
      omega

/-! Success of the builder under the level discipline (claim C5). -/

theorem foldlM_step_cons (init : List Frame × Int) (r : Record) (rest : List Record) :
    List.foldlM stepBuilder init (r :: rest)
      = (stepBuilder init r).bind (fun s => List.foldlM stepBuilder s rest) := rfl

theorem popN_succeeds (n : Nat) : ∀ (st : List Frame), n + 1 ≤ st.length →
    ∃ st2, popN n st = some st2 ∧ st2.length = st.length - n := by
  induction n with
  | zero =>
    intro st hlen
    exact ⟨st, rfl, by omega⟩
  | succ m ih =>
    intro st hlen
    cases st with
    | nil => simp at hlen
    | cons top rest0 =>
      cases rest0 with
      | nil => simp at hlen
      | cons below rest =>
        have hlen2 : m + 1 ≤ ({ below with entries := below.entries
            ++ [Sum.inr (CGNode.mk top.function top.entries)] } :: rest).length := by
          simp at hlen ⊢
          omega
        obtain ⟨st2, hpop, hl⟩ := ih _ hlen2
        refine ⟨st2, ?_, ?_⟩
        · simp only [popN, popFrame, Option.some_bind]
          exact hpop
        · simp at hl ⊢
          omega

theorem appendTop_length (rr : Record) (st : List Frame) :
    (appendTop rr st).length = st.length := by
  cases st with
  | nil => rfl
  | cons f rest => rfl

theorem goodLevels_fold (rs : List Record) :
    ∀ (st : List Frame) (l : Int), levelsOk l rs = true →
      (st.length : Int) = l → 1 ≤ l →
      ∃ st2 l2, List.foldlM stepBuilder (st, l) rs = some (st2, l2) ∧
        (st2.length : Int) = l2 ∧ 1 ≤ l2 := by
  induction rs with
  | nil =>
    intro st l _ hlen hpos
    exact ⟨st, l, rfl, hlen, hpos⟩
  | cons r rest ih =>
    intro st l hok hlen hpos
    have hok1 : 1 ≤ r.level ∧ r.level ≤ l + 1 ∧ levelsOk r.level rest = true := by
      simp only [levelsOk, Bool.and_eq_true, decide_eq_true_eq] at hok
      exact ⟨hok.1.1, hok.1.2, hok.2⟩
    obtain ⟨hr1, hrl, hrest⟩ := hok1
    rw [foldlM_step_cons]
    by_cases hgt : r.level > l
    · have hstep : stepBuilder (st, l) r
          = some (appendTop r ({ function := r.function, entries := [] } :: st), r.level) := by
        simp [stepBuilder, hgt]
      rw [hstep, Option.some_bind]
      refine ih _ r.level hrest ?_ (by omega)
      rw [appendTop_length]
      simp
      omega
    · by_cases hlt : r.level < l
      · have hn : (l - r.level).toNat + 1 ≤ st.length := by omega
        obtain ⟨st1, hpop, hl1⟩ := popN_succeeds _ st hn
        have hstep : stepBuilder (st, l) r = some (appendTop r st1, r.level) := by
          simp [stepBuilder, hlt, not_lt.mpr (le_of_lt hlt), hpop]
        rw [hstep, Option.some_bind]
        refine ih _ r.level hrest ?_ (by omega)
        rw [appendTop_length]
        omega
      · have hstep : stepBuilder (st, l) r = some (appendTop r st, r.level) := by
          simp [stepBuilder, hgt, hlt]
        rw [hstep, Option.some_bind]
        have heq : r.level = l := by omega
        refine ih _ r.level hrest ?_ (by omega)
        rw [appendTop_length]
        omega

/-- Claim C5 amended: the Call-Tree Builder attempts to walk above the
synthetic root only if the record sequence violates the level discipline
— some record's level is below the root level (level < 1) **or** some
record's level exceeds the preceding record's level (initially 1) by more
than 1; whenever such a walk would occur the run fails with a surfaced
error (`get_callgraph` returns no tree, mirroring the failing
`assert curnode.parent`) rather than silently continuing; conversely,
under the level discipline the builder always completes. -/
theorem C5_pop_above_root (rs : List Record) :
    (get_callgraph rs = none → levelsOk 1 rs = false) ∧
    (levelsOk 1 rs = true → ∃ g, get_callgraph rs = some g) := by
  have main : levelsOk 1 rs = true → ∃ g, get_callgraph rs = some g := by
    intro hok
    obtain ⟨st2, l2, hfold, hrest⟩ :=
      goodLevels_fold rs [{ function := {}, entries := [] }] 1 hok (by simp) (by omega)
    cases st2 with
    | nil =>
      exact ⟨CGNode.mk {} [], by simp only [get_callgraph, hfold, Option.map_some']⟩
    | cons f restf =>
      exact ⟨closeAll f restf, by simp only [get_callgraph, hfold, Option.map_some']⟩
  constructor
  · intro hnone
    by_contra hcon
    have htrue : levelsOk 1 rs = true := by
      cases h : levelsOk 1 rs with
      | false => exact absurd h hcon
      | true => rfl
    obtain ⟨g, hg⟩ := main htrue
    rw [hg] at hnone
    exact Option.noConfusion hnone
  · exact main

/-! Association list lemmas. -/

theorem keysA_cons {K V : Type} (k : K) (v : V) (l : List (K × V)) :
    keysA ((k, v) :: l) = k :: keysA l := rfl

theorem mem_keysA {K V : Type} (k : K) : ∀ (l : List (K × V)),
    k ∈ keysA l ↔ ∃ kv ∈ l, kv.1 = k := by
  intro l
  simp [keysA]

theorem lookupA_setA_self {K V : Type} [DecidableEq K] :
    ∀ (l : List (K × V)) (k : K) (v : V), lookupA (setA l k v) k = some v := by
  intro l
  induction l with
  | nil => intro k v; simp [setA, lookupA]
  | cons kv t ih =>
    intro k v
    obtain ⟨k0, v0⟩ := kv
    by_cases hk : k0 = k
    · simp [setA, hk, lookupA]
    · simp only [setA, if_neg hk, lookupA]
      exact ih k v

theorem lookupA_setA_ne {K V : Type} [DecidableEq K] :
    ∀ (l : List (K × V)) (k k2 : K) (v : V), k ≠ k2 →
      lookupA (setA l k v) k2 = lookupA l k2 := by
  intro l
  induction l with
  | nil =>
    intro k k2 v hne
    simp only [setA, lookupA, if_neg hne]
  | cons kv t ih =>
    intro k k2 v hne
    obtain ⟨k0, v0⟩ := kv
    by_cases hk : k0 = k
    · subst hk
      simp only [setA, if_pos rfl, lookupA, if_neg hne]
    · simp only [setA, if_neg hk, lookupA]
      by_cases hk2 : k0 = k2
      · rw [if_pos hk2, if_pos hk2]
      · rw [if_neg hk2, if_neg hk2]
        exact ih k k2 v hne

theorem lookupA_append_right_none {K V : Type} [DecidableEq K] :
    ∀ (l l2 : List (K × V)) (k : K), lookupA l k = none →
      lookupA (l ++ l2) k = lookupA l2 k := by
  intro l
  induction l with
  | nil => intro l2 k _; rfl
  | cons kv t ih =>
    intro l2 k h
    obtain ⟨k0, v0⟩ := kv
    simp only [lookupA] at h
    by_cases hk : k0 = k
    · rw [if_pos hk] at h; exact Option.noConfusion h
    · rw [if_neg hk] at h
      rw [List.cons_append]
      simp only [lookupA, if_neg hk]
      exact ih l2 k h

theorem lookupA_append_left {K V : Type} [DecidableEq K] :
    ∀ (l l2 : List (K × V)) (k : K) (v : V), lookupA l k = some v →
      lookupA (l ++ l2) k = some v := by
  intro l
  induction l with
  | nil => intro l2 k v h; exact Option.noConfusion h
  | cons kv t ih =>
    intro l2 k v h
    obtain ⟨k0, v0⟩ := kv
    simp only [lookupA] at h
    by_cases hk : k0 = k
    · rw [if_pos hk] at h
      rw [List.cons_append]
      simp only [lookupA, if_pos hk]
      exact h
    · rw [if_neg hk] at h
      rw [List.cons_append]
      simp only [lookupA, if_neg hk]
      exact ih l2 k v h

theorem lookupA_modifyA {K V : Type} [DecidableEq K]
    (l : List (K × V)) (k : K) (f : V → V) :
    lookupA (modifyA l k f) k = (lookupA l k).map f := by
  cases h : lookupA l k with
  | none => simp [modifyA, h]
  | some v => simp [modifyA, h, lookupA_setA_self]

theorem lookupA_none_of_not_mem_keys {K V : Type} [DecidableEq K] :
    ∀ (l : List (K × V)) (k : K), k ∉ keysA l → lookupA l k = none := by
  intro l
  induction l with
  | nil => intro k _; rfl
  | cons kv t ih =>
    intro k hk
    obtain ⟨k0, v0⟩ := kv
    rw [keysA_cons] at hk
    by_cases hk0 : k0 = k
    · exact absurd (by rw [hk0]; exact List.mem_cons_self _ _) hk
    · simp only [lookupA, if_neg hk0]
      exact ih k (fun hc => hk (List.mem_cons_of_mem _ hc))

theorem not_mem_keys_of_lookupA_none {K V : Type} [DecidableEq K] :
    ∀ (l : List (K × V)) (k : K), lookupA l k = none → k ∉ keysA l := by
  intro l
  induction l with
  | nil => intro k _; simp [keysA]
  | cons kv t ih =>
    intro k h
    obtain ⟨k0, v0⟩ := kv
    simp only [lookupA] at h
    by_cases hk : k0 = k
    · rw [if_pos hk] at h; exact Option.noConfusion h
    · rw [if_neg hk] at h
      rw [keysA_cons]
      intro hmem
      rcases List.mem_cons.mp hmem with heq | hmem2
      · exact hk heq.symm
      · exact ih k h hmem2

theorem forall_keys_ne_of_lookupA_none {K V : Type} [DecidableEq K]
    (l : List (K × V)) (k : K) (h : lookupA l k = none) :
    ∀ kv ∈ l, kv.1 ≠ k := by
  intro kv hkv hc
  exact not_mem_keys_of_lookupA_none l k h ((mem_keysA k l).mpr ⟨kv, hkv, hc⟩)

theorem lookupA_of_mem_nodup {K V : Type} [DecidableEq K] :
    ∀ (l : List (K × V)) (kv : K × V), (keysA l).Nodup → kv ∈ l →
      lookupA l kv.1 = some kv.2 := by
  intro l
  induction l with
  | nil => intro kv _ hm; simp at hm
  | cons hd t ih =>
    intro kv hnd hm
    obtain ⟨k0, v0⟩ := hd
    rw [keysA_cons] at hnd
    have hnd2 := List.nodup_cons.mp hnd
    rcases List.mem_cons.mp hm with heq | hmem
    · rw [heq]
      simp [lookupA]
    · have hne : k0 ≠ kv.1 := by
        intro hc
        exact hnd2.1 ((mem_keysA k0 t).mpr ⟨kv, hmem, hc.symm⟩)
      simp only [lookupA, if_neg hne]
      exact ih kv hnd2.2 hmem

theorem keysA_setA_present {K V : Type} [DecidableEq K] :
    ∀ (l : List (K × V)) (k : K) (v w : V), lookupA l k = some w →
      keysA (setA l k v) = keysA l := by
  intro l
  induction l with
  | nil => intro k v w h; exact Option.noConfusion h
  | cons kv t ih =>
    intro k v w h
    obtain ⟨k0, v0⟩ := kv
    simp only [lookupA] at h
    by_cases hk : k0 = k
    · simp [setA, hk, keysA_cons]
    · rw [if_neg hk] at h
      simp only [setA, if_neg hk, keysA_cons]
      rw [ih k v w h]

theorem keysA_append {K V : Type} (l l2 : List (K × V)) :
    keysA (l ++ l2) = keysA l ++ keysA l2 := by
  simp [keysA]

theorem lookupA_mapValues {K V W : Type} [DecidableEq K] (g : V → W) :
    ∀ (l : List (K × V)) (k : K),
      lookupA (l.map (fun kv => (kv.1, g kv.2))) k = (lookupA l k).map g := by
  intro l
  induction l with
  | nil => intro k; rfl
  | cons kv t ih =>
    intro k
    obtain ⟨k0, v0⟩ := kv
    by_cases hk : k0 = k
    · simp [lookupA, hk]
    · simp only [List.map_cons, lookupA, if_neg hk]
      exact ih k

theorem assoc_ext {K V : Type} [DecidableEq K] :
    ∀ (l l2 : List (K × V)), keysA l2 = keysA l → (keysA l).Nodup →
      (∀ kv ∈ l, lookupA l2 kv.1 = some kv.2) → l2 = l := by
  intro l
  induction l with
  | nil =>
    intro l2 hk _ _
    cases l2 with
    | nil => rfl
    | cons hd tl => exact absurd hk (by simp [keysA])
  | cons hd t ih =>
    intro l2 hk hnd hl
    obtain ⟨k0, v0⟩ := hd
    cases l2 with
    | nil => exact absurd hk (by simp [keysA])
    | cons hd2 t2 =>
      obtain ⟨k2, v2⟩ := hd2
      rw [keysA_cons, keysA_cons] at hk
      injection hk with hk0 hkt
      rw [keysA_cons] at hnd
      have hnd2 := List.nodup_cons.mp hnd
      have hv : v2 = v0 := by
        have h0 := hl (k0, v0) (List.mem_cons_self _ _)
        simp only [lookupA] at h0
        rw [if_pos hk0] at h0
        injection h0 with h0
      have ht : t2 = t := by
        refine ih t2 hkt hnd2.2 ?_
        intro kv hkv
        have hne : k0 ≠ kv.1 := by
          intro hc
          exact hnd2.1 ((mem_keysA k0 t).mpr ⟨kv, hkv, hc.symm⟩)
        have h1 := hl kv (List.mem_cons_of_mem _ hkv)
        simp only [lookupA] at h1
        rw [if_neg (fun hc => hne (hk0.symm.trans hc))] at h1
        exact h1
      rw [ht, hv, hk0]

/-! The Pstats exporter double-counting correction (claim C3). -/

/-- Claim C3: in the Pstats exporter's top-down walk, for every
parent-to-child edge whose child has the same function identity as the
parent, the edge processing takes the correction branch, and the
resulting accumulated entry of the parent function has exactly
`us2s child.totaltime` (the child's cumulative time in seconds)
subtracted from its `totaltime`, relative to the state right after the
recursive walk of the child and the caller-attribution update. -/
theorem C3_recursive_subtraction (sr : StatsRoot) (pf : FunctionKey)
    (child : CallstatsNode) (h : child.function = pf) :
    fillChildEdge sr pf child =
      subtractSelfChild (addCaller (fillstats sr child) pf pf child) pf child ∧
    lookupA (fillChildEdge sr pf child) pf =
      (lookupA (addCaller (fillstats sr child) pf pf child) pf).map
        (fun ns => { ns with totaltime := ns.totaltime - us2s child.totaltime }) := by
  have h1 : fillChildEdge sr pf child =
      subtractSelfChild (addCaller (fillstats sr child) pf pf child) pf child := by
    rw [fillChildEdge]
    rw [h, if_pos rfl]
  refine ⟨h1, ?_⟩
  rw [h1]
  exact lookupA_modifyA _ pf _

/-! Induction principles for the nested tree types. -/

theorem csNodeInduction {P : CallstatsNode → Prop}
    (h : ∀ f p r ch cs, (∀ kv ∈ ch, P kv.2) → P (.mk f p r ch cs)) :
    ∀ n, P n
  | .mk f p r ch cs => h f p r ch cs (fun kv hkv => csNodeInduction h kv.2)
termination_by n => sizeOf n
decreasing_by
  simp only [CallstatsNode.mk.sizeOf_spec]
  have hs := List.sizeOf_lt_of_mem hkv
  cases kv
  simp at hs ⊢
  omega

theorem cgNodeInduction {P : CGNode → Prop}
    (h : ∀ f es, (∀ n, Sum.inr n ∈ es → P n) → P (.mk f es)) :
    ∀ g, P g
  | .mk f es => h f es (fun n hn => cgNodeInduction h n)
termination_by g => sizeOf g
decreasing_by
  have hs := List.sizeOf_lt_of_mem hn
  simp only [CGNode.mk.sizeOf_spec]
  simp at hs ⊢
  omega

/-! Small unfolding lemmas for the stats nodes. -/

theorem merge_mk (f : FunctionKey) (p r : Nat) (ch : List (FunctionKey × CallstatsNode))
    (cs : List (String × CmdStats)) (f2 : FunctionKey) (p2 r2 : Nat)
    (ch2 : List (FunctionKey × CallstatsNode)) (cs2 : List (String × CmdStats)) :
    (CallstatsNode.mk f p r ch cs).merge (.mk f2 p2 r2 ch2 cs2)
      = .mk f (p + p2) (r + r2) (mergeChildren ch ch2) (mergeCmdstats cs cs2) := by
  rw [CallstatsNode.merge]

theorem merge_function (a b : CallstatsNode) : (a.merge b).function = a.function := by
  cases a; cases b; rw [merge_mk]; rfl

theorem merge_children (a b : CallstatsNode) :
    (a.merge b).children = mergeChildren a.children b.children := by
  cases a; cases b; rw [merge_mk]; rfl

theorem add_record_function (ret : CallstatsNode) (r : Record) :
    (ret.add_record r).function = ret.function := by
  cases ret; rfl

theorem add_record_children (ret : CallstatsNode) (r : Record) :
    (ret.add_record r).children = ret.children := by
  cases ret; rfl

theorem incRecursive_function (n : CallstatsNode) :
    (incRecursive n).function = n.function := by
  cases n; rfl

theorem incRecursive_children (n : CallstatsNode) :
    (incRecursive n).children = n.children := by
  cases n; rfl

theorem incPrimitive_function (n : CallstatsNode) :
    (incPrimitive n).function = n.function := by
  cases n; rfl

theorem incPrimitive_children (n : CallstatsNode) :
    (incPrimitive n).children = n.children := by
  cases n; rfl

theorem addChildCall_function (ret : CallstatsNode) (k : FunctionKey) (sub : CallstatsNode) :
    (addChildCall ret k sub).function = ret.function := by
  cases ret; rfl

theorem addChildCall_children (ret : CallstatsNode) (k : FunctionKey) (sub : CallstatsNode) :
    (addChildCall ret k sub).children
      = upsertA ret.children k (CallstatsNode.ofKey k)
          (fun x => incPrimitive (x.merge sub)) := by
  cases ret; rfl

theorem ofKey_function (k : FunctionKey) : (CallstatsNode.ofKey k).function = k := rfl

theorem csWF_ofKey (k : FunctionKey) : csWF (CallstatsNode.ofKey k) = true := rfl

theorem traverseEntries_function (f : FunctionKey) :
    ∀ (es : List (Record ⊕ CGNode)) (ret : CallstatsNode),
      (traverseEntries f ret es).function = ret.function := by
  intro es
  induction es with
  | nil => intro ret; rfl
  | cons e rest ih =>
    intro ret
    cases e with
    | inl r =>
      rw [show traverseEntries f ret (Sum.inl r :: rest)
          = traverseEntries f (ret.add_record r) rest from rfl]
      rw [ih, add_record_function]
    | inr n =>
      by_cases hn : n.function = f
      · rw [show traverseEntries f ret (Sum.inr n :: rest)
            = if n.function = f then
                traverseEntries f (incRecursive (ret.merge (traverse_for_callstats n))) rest
              else traverseEntries f
                (addChildCall ret n.function (traverse_for_callstats n)) rest from rfl]
        rw [if_pos hn, ih, incRecursive_function, merge_function]
      · rw [show traverseEntries f ret (Sum.inr n :: rest)
            = if n.function = f then
                traverseEntries f (incRecursive (ret.merge (traverse_for_callstats n))) rest
              else traverseEntries f
                (addChildCall ret n.function (traverse_for_callstats n)) rest from rfl]
        rw [if_neg hn, ih, addChildCall_function]

theorem traverse_function (g : CGNode) :
    (traverse_for_callstats g).function = g.function := by
  cases g with
  | mk f es =>
    rw [show traverse_for_callstats (CGNode.mk f es)
        = traverseEntries f (CallstatsNode.ofKey f) es from rfl]
    rw [traverseEntries_function, ofKey_function]
    rfl

/-! The two merge loops are instances of the generic `foldUpsert`. -/

theorem mergeChildren_eq_foldUpsert :
    ∀ (l self : List (FunctionKey × CallstatsNode)),
      mergeChildren self l = foldUpsert CallstatsNode.merge CallstatsNode.ofKey self l := by
  intro l
  induction l with
  | nil => intro self; rfl
  | cons kv rest ih =>
    intro self
    obtain ⟨k, v⟩ := kv
    simp only [mergeChildren, foldUpsert]
    cases hl : lookupA self k with
    | some cur =>
      simp only [hl]
      exact ih _
    | none =>
      simp only [hl]
      exact ih _

theorem mergeCmdstats_eq_foldUpsert :
    ∀ (l self : List (String × CmdStats)),
      mergeCmdstats self l = foldUpsert combCmd (fun k => { cmd := k }) self l := by
  intro l
  induction l with
  | nil => intro self; rfl
  | cons kv rest ih =>
    intro self
    obtain ⟨k, v⟩ := kv
    simp only [mergeCmdstats, upsertA, foldUpsert, combCmd]
    cases hl : lookupA self k with
    | some cur =>
      simp only [hl]
      exact ih _
    | none =>
      simp only [hl]
      exact ih _

/-! Generic facts about `foldUpsert`. -/

theorem lookupA_append_single_ne {K V : Type} [DecidableEq K]
    (l : List (K × V)) (k2 k : K) (w : V) (hne : k2 ≠ k) :
    lookupA (l ++ [(k2, w)]) k = lookupA l k := by
  cases h : lookupA l k with
  | some v => exact lookupA_append_left l [(k2, w)] k v h
  | none =>
    rw [lookupA_append_right_none l [(k2, w)] k h]
    simp [lookupA, hne]

theorem foldUpsert_lookup_absent {K V : Type} [DecidableEq K]
    (c : V → V → V) (d : K → V) :
    ∀ (rest self : List (K × V)) (k : K), k ∉ keysA rest →
      lookupA (foldUpsert c d self rest) k = lookupA self k := by
  intro rest
  induction rest with
  | nil => intro self k _; rfl
  | cons kv r2 ih =>
    intro self k hk
    obtain ⟨k2, v⟩ := kv
    rw [keysA_cons] at hk
    have hne : k2 ≠ k := fun hc => hk (hc ▸ List.mem_cons_self _ _)
    have hk2 : k ∉ keysA r2 := fun hc => hk (List.mem_cons_of_mem _ hc)
    simp only [foldUpsert]
    cases hl : lookupA self k2 with
    | some cur =>
      simp only [hl]
      rw [ih _ k hk2, lookupA_setA_ne _ _ _ _ hne]
    | none =>
      simp only [hl]
      rw [ih _ k hk2, lookupA_append_single_ne _ _ _ _ hne]

theorem foldUpsert_keys_id {K V : Type} [DecidableEq K]
    (c : V → V → V) (d : K → V) :
    ∀ (rest self : List (K × V)),
      (∀ kv ∈ rest, (lookupA self kv.1).isSome = true) →
      keysA (foldUpsert c d self rest) = keysA self := by
  intro rest
  induction rest with
  | nil => intro self _; rfl
  | cons kv r2 ih =>
    intro self hmem
    obtain ⟨k2, v⟩ := kv
    have h2 := hmem (k2, v) (List.mem_cons_self _ _)
    cases hl : lookupA self k2 with
    | none => rw [hl] at h2; simp at h2
    | some cur =>
      simp only [foldUpsert, hl]
      rw [ih _ ?_, keysA_setA_present self k2 (c cur v) cur hl]
      intro kv2 hkv2
      by_cases hk : kv2.1 = k2
      · rw [hk, lookupA_setA_self]; rfl
      · rw [lookupA_setA_ne _ _ _ _ (fun hc => hk hc.symm)]
        exact hmem kv2 (List.mem_cons_of_mem _ hkv2)

theorem foldUpsert_lookup_update {K V : Type} [DecidableEq K]
    (c : V → V → V) (d : K → V) :
    ∀ (rest self : List (K × V)),
      (keysA rest).Nodup →
      (∀ kv ∈ rest, lookupA self kv.1 = some kv.2) →
      ∀ kv ∈ rest, lookupA (foldUpsert c d self rest) kv.1 = some (c kv.2 kv.2) := by
  intro rest
  induction rest with
  | nil => intro self _ _ kv hm; simp at hm
  | cons hd r2 ih =>
    intro self hnd hmem kv hm
    obtain ⟨k2, v⟩ := hd
    rw [keysA_cons] at hnd
    have hnd2 := List.nodup_cons.mp hnd
    have hself2 : lookupA self k2 = some v := hmem (k2, v) (List.mem_cons_self _ _)
    simp only [foldUpsert, hself2]
    rcases List.mem_cons.mp hm with heq | hm2
    · rw [heq]
      rw [foldUpsert_lookup_absent c d r2 _ k2 hnd2.1]
      rw [lookupA_setA_self]
    · have hne : k2 ≠ kv.1 := by
        intro hc
        exact hnd2.1 ((mem_keysA k2 r2).mpr ⟨kv, hm2, hc.symm⟩)
      refine ih _ hnd2.2 ?_ kv hm2
      intro kv2 hkv2
      by_cases hk : k2 = kv2.1
      · exact absurd ((mem_keysA k2 r2).mpr ⟨kv2, hkv2, hk.symm⟩) hnd2.1
      · rw [lookupA_setA_ne _ _ _ _ hk]
        exact hmem kv2 (List.mem_cons_of_mem _ hkv2)

theorem foldUpsert_lookup_none {K V : Type} [DecidableEq K]
    (c : V → V → V) (d : K → V) :
    ∀ (rest self : List (K × V)) (k : K), lookupA self k = none →
      (∀ kv ∈ rest, kv.1 ≠ k) →
      lookupA (foldUpsert c d self rest) k = none := by
  intro rest
  induction rest with
  | nil => intro self k h _; exact h
  | cons kv r2 ih =>
    intro self k h hk
    obtain ⟨k2, v⟩ := kv
    have hne : k2 ≠ k := hk (k2, v) (List.mem_cons_self _ _)
    simp only [foldUpsert]
    cases hl : lookupA self k2 with
    | some cur =>
      simp only [hl]
      refine ih _ k ?_ (fun kv2 hkv2 => hk kv2 (List.mem_cons_of_mem _ hkv2))
      rw [lookupA_setA_ne _ _ _ _ hne]
      exact h
    | none =>
      simp only [hl]
      refine ih _ k ?_ (fun kv2 hkv2 => hk kv2 (List.mem_cons_of_mem _ hkv2))
      rw [lookupA_append_single_ne _ _ _ _ hne]
      exact h

/-! Well-formedness of aggregated stats trees. -/

theorem csWF_parts (f : FunctionKey) (p r : Nat) (ch : List (FunctionKey × CallstatsNode))
    (cs : List (String × CmdStats)) :
    csWF (.mk f p r ch cs) = true ↔ lookupA ch f = none ∧ csWFchildren ch = true := by
  simp [csWF, Bool.and_eq_true, Option.isNone_iff_eq_none]

theorem csWF_lookup_none (n : CallstatsNode) (h : csWF n = true) :
    lookupA n.children n.function = none := by
  cases n with
  | mk f p r ch cs => exact ((csWF_parts f p r ch cs).mp h).1

theorem csWF_children (n : CallstatsNode) (h : csWF n = true) :
    csWFchildren n.children = true := by
  cases n with
  | mk f p r ch cs => exact ((csWF_parts f p r ch cs).mp h).2

theorem csWFchildren_cons (k : FunctionKey) (v : CallstatsNode)
    (l : List (FunctionKey × CallstatsNode)) :
    csWFchildren ((k, v) :: l) = true ↔
      v.function = k ∧ csWF v = true ∧ csWFchildren l = true := by
  simp [csWFchildren, Bool.and_eq_true, decide_eq_true_eq]
  tauto

theorem csWFchildren_mem :
    ∀ (l : List (FunctionKey × CallstatsNode)), csWFchildren l = true →
      ∀ kv ∈ l, kv.2.function = kv.1 ∧ csWF kv.2 = true := by
  intro l
  induction l with
  | nil => intro _ kv hm; simp at hm
  | cons hd t ih =>
    intro h kv hm
    obtain ⟨k, v⟩ := hd
    obtain ⟨h1, h2, h3⟩ := (csWFchildren_cons k v t).mp h
    rcases List.mem_cons.mp hm with heq | hm2
    · rw [heq]; exact ⟨h1, h2⟩
    · exact ih h3 kv hm2

theorem csWFchildren_lookup :
    ∀ (l : List (FunctionKey × CallstatsNode)) (k : FunctionKey) (v : CallstatsNode),
      csWFchildren l = true → lookupA l k = some v →
      v.function = k ∧ csWF v = true := by
  intro l
  induction l with
  | nil => intro k v _ h; exact Option.noConfusion h
  | cons hd t ih =>
    intro k v h hl
    obtain ⟨k0, v0⟩ := hd
    obtain ⟨h1, h2, h3⟩ := (csWFchildren_cons k0 v0 t).mp h
    simp only [lookupA] at hl
    by_cases hk : k0 = k
    · rw [if_pos hk] at hl
      injection hl with hl
      rw [← hl, ← hk]
      exact ⟨h1, h2⟩
    · rw [if_neg hk] at hl
      exact ih k v h3 hl

theorem csWFchildren_setA :
    ∀ (l : List (FunctionKey × CallstatsNode)) (k : FunctionKey) (w : CallstatsNode),
      csWFchildren l = true → w.function = k → csWF w = true →
      csWFchildren (setA l k w) = true := by
  intro l
  induction l with
  | nil =>
    intro k w _ hf hw
    simp only [setA]
    exact (csWFchildren_cons k w []).mpr ⟨hf, hw, rfl⟩
  | cons hd t ih =>
    intro k w h hf hw
    obtain ⟨k0, v0⟩ := hd
    obtain ⟨h1, h2, h3⟩ := (csWFchildren_cons k0 v0 t).mp h
    by_cases hk : k0 = k
    · simp only [setA, if_pos hk]
      exact (csWFchildren_cons k0 w t).mpr ⟨by rw [hf, hk], hw, h3⟩
    · simp only [setA, if_neg hk]
      exact (csWFchildren_cons k0 v0 _).mpr ⟨h1, h2, ih k w h3 hf hw⟩

theorem csWFchildren_append_one :
    ∀ (l : List (FunctionKey × CallstatsNode)) (k : FunctionKey) (w : CallstatsNode),
      csWFchildren l = true → w.function = k → csWF w = true →
      csWFchildren (l ++ [(k, w)]) = true := by
  intro l
  induction l with
  | nil =>
    intro k w _ hf hw
    exact (csWFchildren_cons k w []).mpr ⟨hf, hw, rfl⟩
  | cons hd t ih =>
    intro k w h hf hw
    obtain ⟨k0, v0⟩ := hd
    obtain ⟨h1, h2, h3⟩ := (csWFchildren_cons k0 v0 t).mp h
    rw [List.cons_append]
    exact (csWFchildren_cons k0 v0 _).mpr ⟨h1, h2, ih k w h3 hf hw⟩

theorem csWFchildren_mergeChildren (f : FunctionKey) :
    ∀ (ch2 ch : List (FunctionKey × CallstatsNode)),
      (∀ kv ∈ ch2, ∀ a, csWF a = true → csWF kv.2 = true →
        a.function = kv.2.function → csWF (a.merge kv.2) = true) →
      csWFchildren ch = true → csWFchildren ch2 = true →
      lookupA ch f = none → lookupA ch2 f = none →
      csWFchildren (mergeChildren ch ch2) = true ∧
      lookupA (mergeChildren ch ch2) f = none := by
  intro ch2
  induction ch2 with
  | nil =>
    intro ch _ hch _ hnone _
    exact ⟨hch, hnone⟩
  | cons hd r2 ih =>
    intro ch hIH hch hch2 hnone hnone2
    obtain ⟨k2, v⟩ := hd
    obtain ⟨hv1, hv2, hr2⟩ := (csWFchildren_cons k2 v r2).mp hch2
    have hk2f : k2 ≠ f := by
      have := forall_keys_ne_of_lookupA_none _ f hnone2 (k2, v) (List.mem_cons_self _ _)
      exact this
    have hnone2r : lookupA r2 f = none := by
      simp only [lookupA, if_neg hk2f] at hnone2
      exact hnone2
    have hIHr : ∀ kv ∈ r2, ∀ a, csWF a = true → csWF kv.2 = true →
        a.function = kv.2.function → csWF (a.merge kv.2) = true :=
      fun kv hkv => hIH kv (List.mem_cons_of_mem _ hkv)
    simp only [mergeChildren]
    cases hl : lookupA ch k2 with
    | some cur =>
      simp only [hl]
      obtain ⟨hcf, hcw⟩ := csWFchildren_lookup ch k2 cur hch hl
      have hmerged : csWF (cur.merge v) = true :=
        hIH (k2, v) (List.mem_cons_self _ _) cur hcw hv2 (by rw [hcf, hv1])
      have hmf : (cur.merge v).function = k2 := by rw [merge_function, hcf]
      refine ih (setA ch k2 (cur.merge v)) hIHr ?_ hr2 ?_ hnone2r
      · exact csWFchildren_setA ch k2 _ hch hmf hmerged
      · rw [lookupA_setA_ne _ _ _ _ hk2f]
        exact hnone
    | none =>
      simp only [hl]
      have hmerged : csWF ((CallstatsNode.ofKey k2).merge v) = true :=
        hIH (k2, v) (List.mem_cons_self _ _) (CallstatsNode.ofKey k2) (csWF_ofKey k2) hv2
          (by rw [ofKey_function, hv1])
      have hmf : ((CallstatsNode.ofKey k2).merge v).function = k2 := by
        rw [merge_function, ofKey_function]
      refine ih (ch ++ [(k2, (CallstatsNode.ofKey k2).merge v)]) hIHr ?_ hr2 ?_ hnone2r
      · exact csWFchildren_append_one ch k2 _ hch hmf hmerged
      · rw [lookupA_append_single_ne _ _ _ _ hk2f]
        exact hnone

theorem csWF_merge : ∀ (b a : CallstatsNode), csWF a = true → csWF b = true →
    a.function = b.function → csWF (a.merge b) = true := by
  refine csNodeInduction ?_
  intro fb pb rb ch2 cs2 hIH a ha hb hab
  cases a with
  | mk fa pa ra cha csa =>
    rw [merge_mk]
    have hfa : fa = fb := hab
    obtain ⟨hnone_a, hch_a⟩ := (csWF_parts fa pa ra cha csa).mp ha
    obtain ⟨hnone_b, hch_b⟩ := (csWF_parts fb pb rb ch2 cs2).mp hb
    rw [← hfa] at hnone_b
    have hIH2 : ∀ kv ∈ ch2, ∀ x, csWF x = true → csWF kv.2 = true →
        x.function = kv.2.function → csWF (x.merge kv.2) = true := by
      intro kv hkv x hx hkv2 hxf
      exact hIH kv hkv x hx hkv2 hxf
    obtain ⟨hwf, hnone⟩ :=
      csWFchildren_mergeChildren fa ch2 cha hIH2 hch_a hch_b hnone_a hnone_b
    exact (csWF_parts _ _ _ _ _).mpr ⟨hnone, hwf⟩

theorem csWF_add_record (ret : CallstatsNode) (r : Record) :
    csWF (ret.add_record r) = csWF ret := by
  cases ret; rfl

theorem csWF_incRecursive (n : CallstatsNode) : csWF (incRecursive n) = csWF n := by
  cases n; rfl

theorem csWF_incPrimitive (n : CallstatsNode) : csWF (incPrimitive n) = csWF n := by
  cases n; rfl

theorem csWF_addChildCall (ret : CallstatsNode) (k2 : FunctionKey) (sub : CallstatsNode)
    (hret : csWF ret = true) (hsub : csWF sub = true) (hsf : sub.function = k2)
    (hne : k2 ≠ ret.function) : csWF (addChildCall ret k2 sub) = true := by
  cases ret with
  | mk f p r ch cs =>
    have hnef : k2 ≠ f := hne
    obtain ⟨hnone, hch⟩ := (csWF_parts f p r ch cs).mp hret
    rw [show addChildCall (.mk f p r ch cs) k2 sub
        = .mk f p r (upsertA ch k2 (CallstatsNode.ofKey k2)
            (fun x => incPrimitive (x.merge sub))) cs from rfl]
    refine (csWF_parts _ _ _ _ _).mpr ⟨?_, ?_⟩
    · simp only [upsertA]
      cases hl : lookupA ch k2 with
      | some cur =>
        simp only [hl]
        rw [lookupA_setA_ne _ _ _ _ hnef]
        exact hnone
      | none =>
        simp only [hl]
        rw [lookupA_append_single_ne _ _ _ _ hnef]
        exact hnone
    · simp only [upsertA]
      cases hl : lookupA ch k2 with
      | some cur =>
        simp only [hl]
        obtain ⟨hcf, hcw⟩ := csWFchildren_lookup ch k2 cur hch hl
        refine csWFchildren_setA ch k2 _ hch ?_ ?_
        · rw [incPrimitive_function, merge_function, hcf]
        · rw [csWF_incPrimitive]
          exact csWF_merge sub cur hcw hsub (by rw [hcf, hsf])
      | none =>
        simp only [hl]
        refine csWFchildren_append_one ch k2 _ hch ?_ ?_
        · rw [incPrimitive_function, merge_function, ofKey_function]
        · rw [csWF_incPrimitive]
          exact csWF_merge sub (CallstatsNode.ofKey k2) (csWF_ofKey k2) hsub
            (by rw [ofKey_function, hsf])

theorem csWF_traverseEntries (f : FunctionKey) :
    ∀ (es : List (Record ⊕ CGNode)) (ret : CallstatsNode),
      ret.function = f → csWF ret = true →
      (∀ n, Sum.inr n ∈ es → csWF (traverse_for_callstats n) = true) →
      csWF (traverseEntries f ret es) = true := by
  intro es
  induction es with
  | nil => intro ret _ hret _; exact hret
  | cons e rest ih =>
    intro ret hf hret hmem
    have hmem2 : ∀ n, Sum.inr n ∈ rest → csWF (traverse_for_callstats n) = true :=
      fun n hn => hmem n (List.mem_cons_of_mem _ hn)
    cases e with
    | inl r =>
      rw [show traverseEntries f ret (Sum.inl r :: rest)
          = traverseEntries f (ret.add_record r) rest from rfl]
      refine ih _ ?_ ?_ hmem2
      · rw [add_record_function, hf]
      · rw [csWF_add_record]; exact hret
    | inr n =>
      rw [show traverseEntries f ret (Sum.inr n :: rest)
          = if n.function = f then
              traverseEntries f (incRecursive (ret.merge (traverse_for_callstats n))) rest
            else traverseEntries f
              (addChildCall ret n.function (traverse_for_callstats n)) rest from rfl]
      have hsub : csWF (traverse_for_callstats n) = true :=
        hmem n (List.mem_cons_self _ _)
      by_cases hn : n.function = f
      · rw [if_pos hn]
        refine ih _ ?_ ?_ hmem2
        · rw [incRecursive_function, merge_function, hf]
        · rw [csWF_incRecursive]
          exact csWF_merge _ ret hret hsub (by rw [hf, traverse_function, hn])
      · rw [if_neg hn]
        refine ih _ ?_ ?_ hmem2
        · rw [addChildCall_function, hf]
        · exact csWF_addChildCall ret n.function _ hret hsub (traverse_function n)
            (by rw [hf]; exact hn)

theorem csWF_traverse : ∀ g, csWF (traverse_for_callstats g) = true := by
  refine cgNodeInduction ?_
  intro f es hIH
  rw [show traverse_for_callstats (CGNode.mk f es)
      = traverseEntries f (CallstatsNode.ofKey f) es from rfl]
  exact csWF_traverseEntries f es _ (ofKey_function f) (csWF_ofKey f) hIH

/-! Self-recursion folding in the Stats Aggregator (claim C2). -/

/-- Claim C2: the Stats Aggregator treats a child call-tree node with the
same function identity as the current node as self-recursion — its
aggregation result is merged directly into the accumulated node and
`recursivecallcount` is incremented by 1 (first conjunct); this creates
no entry for that function in the `children` map (second conjunct); in
particular, on the trace `rsC2`, whose level sequence enters and leaves
the function identity `fk1` twice, the aggregated node for `fk1` has
`recursivecallcount = 1` and no separate child entry for `fk1` (third
conjunct). -/
theorem C2_self_recursion_folding (f : FunctionKey) (ret : CallstatsNode)
    (es : List (Record ⊕ CGNode)) (n : CGNode) (h : n.function = f) :
    (traverseEntries f ret (Sum.inr n :: es)
      = traverseEntries f (incRecursive (ret.merge (traverse_for_callstats n))) es) ∧
    (ret.function = f → lookupA ret.children f = none →
      lookupA (incRecursive (ret.merge (traverse_for_callstats n))).children f = none) ∧
    (get_callgraph rsC2).map (fun g =>
        (lookupA (traverse_for_callstats g).children fk1).map
          (fun x => (x.recursivecallcount, (lookupA x.children fk1).isNone)))
      = some (some (1, true)) := by
  refine ⟨?_, ?_, ?_⟩
  · rw [show traverseEntries f ret (Sum.inr n :: es)
        = if n.function = f then
            traverseEntries f (incRecursive (ret.merge (traverse_for_callstats n))) es
          else traverseEntries f
            (addChildCall ret n.function (traverse_for_callstats n)) es from rfl]
    rw [if_pos h]
  · intro hrf hnone
    rw [incRecursive_children, merge_children, mergeChildren_eq_foldUpsert]
    refine foldUpsert_lookup_none _ _ _ _ f hnone ?_
    have hwf := csWF_traverse n
    have hnone2 : lookupA (traverse_for_callstats n).children f = none := by
      have := csWF_lookup_none _ hwf
      rw [traverse_function, h] at this
      exact this
    exact forall_keys_ne_of_lookupA_none _ f hnone2
  · rfl

/-! The exporter's correction branch on aggregator output (claim C10). -/

theorem fill_eq_noSub : ∀ (n : CallstatsNode), csWF n = true →
    ∀ sr, fillstats sr n = fillstatsNoSub sr n := by
  refine csNodeInduction ?_
  intro f p r ch cs hIH hwf sr
  obtain ⟨hnone, hch⟩ := (csWF_parts f p r ch cs).mp hwf
  rw [show fillstats sr (.mk f p r ch cs)
      = fillChildren (addNodeStats sr (.mk f p r ch cs)) f ch from by rw [fillstats]]
  rw [show fillstatsNoSub sr (.mk f p r ch cs)
      = fillChildrenNoSub (addNodeStats sr (.mk f p r ch cs)) f ch from by rw [fillstatsNoSub]]
  have loop : ∀ (l : List (FunctionKey × CallstatsNode)),
      (∀ kv ∈ l, kv.2.function ≠ f ∧ csWF kv.2 = true ∧
        (∀ sr2, fillstats sr2 kv.2 = fillstatsNoSub sr2 kv.2)) →
      ∀ sr2, fillChildren sr2 f l = fillChildrenNoSub sr2 f l := by
    intro l
    induction l with
    | nil => intro _ sr2; rw [fillChildren, fillChildrenNoSub]
    | cons kv rest ihl =>
      intro hfacts sr2
      obtain ⟨k, child⟩ := kv
      obtain ⟨hne, hcwf, hfill⟩ := hfacts (k, child) (List.mem_cons_self _ _)
      rw [show fillChildren sr2 f ((k, child) :: rest)
          = fillChildren (fillChildEdge sr2 f child) f rest from by rw [fillChildren]]
      rw [show fillChildrenNoSub sr2 f ((k, child) :: rest)
          = fillChildrenNoSub (fillChildEdgeNoSub sr2 f child) f rest from by
            rw [fillChildrenNoSub]]
      have hedge : fillChildEdge sr2 f child = fillChildEdgeNoSub sr2 f child := by
        rw [fillChildEdge, fillChildEdgeNoSub]
        rw [if_neg hne, hfill]
      rw [hedge]
      exact ihl (fun kv2 hkv2 => hfacts kv2 (List.mem_cons_of_mem _ hkv2)) _
  refine loop ch ?_ _
  intro kv hkv
  obtain ⟨hkf, hkw⟩ := csWFchildren_mem ch hch kv hkv
  have hne : kv.2.function ≠ f := by
    rw [hkf]
    exact forall_keys_ne_of_lookupA_none ch f hnone kv hkv
  exact ⟨hne, hkw, fun sr2 => hIH kv hkv hkw sr2⟩

/-- Claim C10 (implicit): every `CallstatsNode` produced by the Stats
Aggregator satisfies the invariant that its `children` map never binds the
node's own function key (same-identity calls are always folded into the
node itself; `csWF` additionally records that each binding's value carries
the binding's key, which is what the aggregator guarantees and what the
preservation under `merge` needs); `merge` preserves the invariant for
nodes of equal function identity; consequently, on aggregator output the
Pstats exporter's branch that subtracts a same-identity child's cumulative
time is never taken — the walk coincides with the branch-free variant
`fillstatsNoSub`. -/
theorem C10_aggregator_invariant (g : CGNode) (a b : CallstatsNode) (sr : StatsRoot)
    (ha : csWF a = true) (hb : csWF b = true) (hab : a.function = b.function) :
    csWF (traverse_for_callstats g) = true ∧
    lookupA (traverse_for_callstats g).children (traverse_for_callstats g).function = none ∧
    csWF (a.merge b) = true ∧
    lookupA (a.merge b).children (a.merge b).function = none ∧
    fillstats sr (traverse_for_callstats g) = fillstatsNoSub sr (traverse_for_callstats g) := by
  have h1 := csWF_traverse g
  have h3 := csWF_merge b a ha hb hab
  exact ⟨h1, csWF_lookup_none _ h1, h3, csWF_lookup_none _ h3,
    fill_eq_noSub _ h1 sr⟩

/-! Call counting across the aggregation (claim C9). -/

theorem sumCC_mk (k f : FunctionKey) (p r : Nat) (ch : List (FunctionKey × CallstatsNode))
    (cs : List (String × CmdStats)) :
    sumCallcounts k (.mk f p r ch cs)
      = (if f = k then p + r else 0) + sumCallcountsChildren k ch := by
  rw [sumCallcounts]

theorem sumCCch_nil (k : FunctionKey) : sumCallcountsChildren k [] = 0 := rfl

theorem sumCCch_cons (k k2 : FunctionKey) (v : CallstatsNode)
    (l : List (FunctionKey × CallstatsNode)) :
    sumCallcountsChildren k ((k2, v) :: l)
      = sumCallcounts k v + sumCallcountsChildren k l := by
  rw [sumCallcountsChildren]

theorem sumCC_ofKey (k k2 : FunctionKey) : sumCallcounts k (CallstatsNode.ofKey k2) = 0 := by
  rw [CallstatsNode.ofKey, sumCC_mk, sumCCch_nil]
  by_cases h : k2 = k
  · rw [if_pos h]
  · rw [if_neg h]

theorem sumCC_add_record (k : FunctionKey) (ret : CallstatsNode) (r : Record) :
    sumCallcounts k (ret.add_record r) = sumCallcounts k ret := by
  cases ret with
  | mk f p rr ch cs =>
    rw [CallstatsNode.add_record, sumCC_mk, sumCC_mk]

theorem sumCC_incRecursive (k : FunctionKey) (m : CallstatsNode) :
    sumCallcounts k (incRecursive m)
      = sumCallcounts k m + (if m.function = k then 1 else 0) := by
  cases m with
  | mk f p r ch cs =>
    rw [show incRecursive (.mk f p r ch cs) = .mk f p (r + 1) ch cs from rfl]
    rw [sumCC_mk, sumCC_mk]
    rw [show (CallstatsNode.mk f p r ch cs).function = f from rfl]
    by_cases h : f = k
    · simp only [if_pos h]
      omega
    · simp only [if_neg h]
      omega

theorem sumCC_incPrimitive (k : FunctionKey) (m : CallstatsNode) :
    sumCallcounts k (incPrimitive m)
      = sumCallcounts k m + (if m.function = k then 1 else 0) := by
  cases m with
  | mk f p r ch cs =>
    rw [show incPrimitive (.mk f p r ch cs) = .mk f (p + 1) r ch cs from rfl]
    rw [sumCC_mk, sumCC_mk]
    rw [show (CallstatsNode.mk f p r ch cs).function = f from rfl]
    by_cases h : f = k
    · simp only [if_pos h]
      omega
    · simp only [if_neg h]
      omega

theorem sumCCch_setA (k : FunctionKey) :
    ∀ (l : List (FunctionKey × CallstatsNode)) (k2 : FunctionKey) (cur w : CallstatsNode),
      lookupA l k2 = some cur →
      sumCallcountsChildren k (setA l k2 w) + sumCallcounts k cur
        = sumCallcountsChildren k l + sumCallcounts k w := by
  intro l
  induction l with
  | nil => intro k2 cur w h; exact Option.noConfusion h
  | cons hd t ih =>
    intro k2 cur w h
    obtain ⟨k0, v0⟩ := hd
    simp only [lookupA] at h
    by_cases hk : k0 = k2
    · rw [if_pos hk] at h
      injection h with h
      simp only [setA, if_pos hk]
      rw [sumCCch_cons, sumCCch_cons, h]
      omega
    · rw [if_neg hk] at h
      simp only [setA, if_neg hk]
      rw [sumCCch_cons, sumCCch_cons]
      have := ih k2 cur w h
      omega

theorem sumCCch_append_one (k : FunctionKey) :
    ∀ (l : List (FunctionKey × CallstatsNode)) (k2 : FunctionKey) (w : CallstatsNode),
      sumCallcountsChildren k (l ++ [(k2, w)])
        = sumCallcountsChildren k l + sumCallcounts k w := by
  intro l
  induction l with
  | nil =>
    intro k2 w
    rw [List.nil_append, sumCCch_cons, sumCCch_nil]
    omega
  | cons hd t ih =>
    intro k2 w
    obtain ⟨k0, v0⟩ := hd
    rw [List.cons_append, sumCCch_cons, sumCCch_cons, ih]
    omega

theorem sumCCch_mergeChildren (k : FunctionKey) :
    ∀ (ch2 ch : List (FunctionKey × CallstatsNode)),
      (∀ kv ∈ ch2, ∀ a, csWF a = true → csWF kv.2 = true →
        a.function = kv.2.function →
        sumCallcounts k (a.merge kv.2) = sumCallcounts k a + sumCallcounts k kv.2) →
      csWFchildren ch = true → csWFchildren ch2 = true →
      sumCallcountsChildren k (mergeChildren ch ch2)
        = sumCallcountsChildren k ch + sumCallcountsChildren k ch2 := by
  intro ch2
  induction ch2 with
  | nil =>
    intro ch _ _ _
    rw [show mergeChildren ch [] = ch from rfl, sumCCch_nil]
    omega
  | cons hd r2 ih =>
    intro ch hIH hch hch2
    obtain ⟨k2, v⟩ := hd
    obtain ⟨hv1, hv2, hr2⟩ := (csWFchildren_cons k2 v r2).mp hch2
    have hIHr : ∀ kv ∈ r2, ∀ a, csWF a = true → csWF kv.2 = true →
        a.function = kv.2.function →
        sumCallcounts k (a.merge kv.2) = sumCallcounts k a + sumCallcounts k kv.2 :=
      fun kv hkv => hIH kv (List.mem_cons_of_mem _ hkv)
    simp only [mergeChildren]
    cases hl : lookupA ch k2 with
    | some cur =>
      simp only [hl]
      obtain ⟨hcf, hcw⟩ := csWFchildren_lookup ch k2 cur hch hl
      have hsum : sumCallcounts k (cur.merge v)
          = sumCallcounts k cur + sumCallcounts k v :=
        hIH (k2, v) (List.mem_cons_self _ _) cur hcw hv2 (by rw [hcf, hv1])
      have hwfm : csWF (cur.merge v) = true :=
        csWF_merge v cur hcw hv2 (by rw [hcf, hv1])
      have hset : csWFchildren (setA ch k2 (cur.merge v)) = true :=
        csWFchildren_setA ch k2 _ hch (by rw [merge_function, hcf]) hwfm
      have hrec := ih (setA ch k2 (cur.merge v)) hIHr hset hr2
      have hsetsum := sumCCch_setA k ch k2 cur (cur.merge v) hl
      rw [sumCCch_cons]
      omega
    | none =>
      simp only [hl]
      have hsum : sumCallcounts k ((CallstatsNode.ofKey k2).merge v)
          = sumCallcounts k (CallstatsNode.ofKey k2) + sumCallcounts k v :=
        hIH (k2, v) (List.mem_cons_self _ _) (CallstatsNode.ofKey k2) (csWF_ofKey k2) hv2
          (by rw [ofKey_function, hv1])
      have hwfm : csWF ((CallstatsNode.ofKey k2).merge v) = true :=
        csWF_merge v (CallstatsNode.ofKey k2) (csWF_ofKey k2) hv2
          (by rw [ofKey_function, hv1])
      have happ : csWFchildren (ch ++ [(k2, (CallstatsNode.ofKey k2).merge v)]) = true :=
        csWFchildren_append_one ch k2 _ hch (by rw [merge_function, ofKey_function]) hwfm
      have hrec := ih (ch ++ [(k2, (CallstatsNode.ofKey k2).merge v)]) hIHr happ hr2
      have happsum := sumCCch_append_one k ch k2 ((CallstatsNode.ofKey k2).merge v)
      have hzero := sumCC_ofKey k k2
      rw [sumCCch_cons]
      omega

theorem sumCC_merge (k : FunctionKey) : ∀ (b a : CallstatsNode), csWF a = true →
    csWF b = true → a.function = b.function →
    sumCallcounts k (a.merge b) = sumCallcounts k a + sumCallcounts k b := by
  refine csNodeInduction ?_
  intro fb pb rb ch2 cs2 hIH a ha hb hab
  cases a with
  | mk fa pa ra cha csa =>
    rw [merge_mk]
    have hfa : fa = fb := hab
    obtain ⟨_, hch_a⟩ := (csWF_parts fa pa ra cha csa).mp ha
    obtain ⟨_, hch_b⟩ := (csWF_parts fb pb rb ch2 cs2).mp hb
    have hIH2 : ∀ kv ∈ ch2, ∀ x, csWF x = true → csWF kv.2 = true →
        x.function = kv.2.function →
        sumCallcounts k (x.merge kv.2) = sumCallcounts k x + sumCallcounts k kv.2 :=
      fun kv hkv x hx hkv2 hxf => hIH kv hkv x hx hkv2 hxf
    have hchsum := sumCCch_mergeChildren k ch2 cha hIH2 hch_a hch_b
    rw [sumCC_mk, sumCC_mk, sumCC_mk, hchsum, ← hfa]
    by_cases h : fa = k
    · simp only [if_pos h]
      omega
    · simp only [if_neg h]
      omega

theorem sumCC_addChildCall (k : FunctionKey) (ret : CallstatsNode) (k2 : FunctionKey)
    (sub : CallstatsNode) (hret : csWF ret = true) (hsub : csWF sub = true)
    (hsf : sub.function = k2) :
    sumCallcounts k (addChildCall ret k2 sub)
      = sumCallcounts k ret + sumCallcounts k sub + (if k2 = k then 1 else 0) := by
  cases ret with
  | mk f p r ch cs =>
    obtain ⟨_, hch⟩ := (csWF_parts f p r ch cs).mp hret
    rw [show addChildCall (.mk f p r ch cs) k2 sub
        = .mk f p r (upsertA ch k2 (CallstatsNode.ofKey k2)
            (fun x => incPrimitive (x.merge sub))) cs from rfl]
    rw [sumCC_mk, sumCC_mk]
    simp only [upsertA]
    cases hl : lookupA ch k2 with
    | some cur =>
      simp only [hl]
      obtain ⟨hcf, hcw⟩ := csWFchildren_lookup ch k2 cur hch hl
      have hmsum : sumCallcounts k (cur.merge sub)
          = sumCallcounts k cur + sumCallcounts k sub :=
        sumCC_merge k sub cur hcw hsub (by rw [hcf, hsf])
      have hinc : sumCallcounts k (incPrimitive (cur.merge sub))
          = sumCallcounts k (cur.merge sub)
            + (if (cur.merge sub).function = k then 1 else 0) :=
        sumCC_incPrimitive k _
      rw [merge_function, hcf] at hinc
      have hset := sumCCch_setA k ch k2 cur (incPrimitive (cur.merge sub)) hl
      omega
    | none =>
      simp only [hl]
      have hmsum : sumCallcounts k ((CallstatsNode.ofKey k2).merge sub)
          = sumCallcounts k (CallstatsNode.ofKey k2) + sumCallcounts k sub :=
        sumCC_merge k sub (CallstatsNode.ofKey k2) (csWF_ofKey k2) hsub
          (by rw [ofKey_function, hsf])
      have hinc : sumCallcounts k (incPrimitive ((CallstatsNode.ofKey k2).merge sub))
          = sumCallcounts k ((CallstatsNode.ofKey k2).merge sub)
            + (if ((CallstatsNode.ofKey k2).merge sub).function = k then 1 else 0) :=
        sumCC_incPrimitive k _
      rw [merge_function, ofKey_function] at hinc
      have happ := sumCCch_append_one k ch k2 (incPrimitive ((CallstatsNode.ofKey k2).merge sub))
      have hzero := sumCC_ofKey k k2
      omega

theorem countEntries_nil (k : FunctionKey) : countSubtreesEntries k [] = 0 := rfl

theorem countEntries_inl (k : FunctionKey) (r : Record) (rest : List (Record ⊕ CGNode)) :
    countSubtreesEntries k (Sum.inl r :: rest) = countSubtreesEntries k rest := by
  rw [countSubtreesEntries]

theorem countEntries_inr (k : FunctionKey) (n : CGNode) (rest : List (Record ⊕ CGNode)) :
    countSubtreesEntries k (Sum.inr n :: rest)
      = countSubtrees k n + countSubtreesEntries k rest := by
  rw [countSubtreesEntries]

theorem sumCC_traverseEntries (f k : FunctionKey) :
    ∀ (es : List (Record ⊕ CGNode)) (ret : CallstatsNode),
      ret.function = f → csWF ret = true →
      (∀ n, Sum.inr n ∈ es →
        sumCallcounts k (traverse_for_callstats n)
          + (if n.function = k then 1 else 0) = countSubtrees k n) →
      sumCallcounts k (traverseEntries f ret es)
        = sumCallcounts k ret + countSubtreesEntries k es := by
  intro es
  induction es with
  | nil =>
    intro ret _ _ _
    rw [countEntries_nil]
    rw [show traverseEntries f ret [] = ret from rfl]
    omega
  | cons e rest ih =>
    intro ret hf hret hmem
    have hmem2 : ∀ n, Sum.inr n ∈ rest →
        sumCallcounts k (traverse_for_callstats n)
          + (if n.function = k then 1 else 0) = countSubtrees k n :=
      fun n hn => hmem n (List.mem_cons_of_mem _ hn)
    cases e with
    | inl r =>
      rw [show traverseEntries f ret (Sum.inl r :: rest)
          = traverseEntries f (ret.add_record r) rest from rfl]
      rw [countEntries_inl]
      rw [ih _ (by rw [add_record_function, hf]) (by rw [csWF_add_record]; exact hret) hmem2]
      rw [sumCC_add_record]
    | inr n =>
      rw [show traverseEntries f ret (Sum.inr n :: rest)
          = if n.function = f then
              traverseEntries f (incRecursive (ret.merge (traverse_for_callstats n))) rest
            else traverseEntries f
              (addChildCall ret n.function (traverse_for_callstats n)) rest from rfl]
      rw [countEntries_inr]
      have hsubwf : csWF (traverse_for_callstats n) = true := csWF_traverse n
      have hsubcount := hmem n (List.mem_cons_self _ _)
      by_cases hn : n.function = f
      · rw [if_pos hn]
        have hfuncs : ret.function = (traverse_for_callstats n).function := by
          rw [hf, traverse_function, hn]
        have hwf2 : csWF (incRecursive (ret.merge (traverse_for_callstats n))) = true := by
          rw [csWF_incRecursive]
          exact csWF_merge _ ret hret hsubwf hfuncs
        have hfn2 : (incRecursive (ret.merge (traverse_for_callstats n))).function = f := by
          rw [incRecursive_function, merge_function, hf]
        rw [ih _ hfn2 hwf2 hmem2]
        have hsum1 := sumCC_incRecursive k (ret.merge (traverse_for_callstats n))
        rw [merge_function, hf, ← hn] at hsum1
        have hsum2 := sumCC_merge k (traverse_for_callstats n) ret hret hsubwf hfuncs
        omega
      · rw [if_neg hn]
        have hwf2 : csWF (addChildCall ret n.function (traverse_for_callstats n)) = true :=
          csWF_addChildCall ret n.function _ hret hsubwf (traverse_function n)
            (by rw [hf]; exact hn)
        have hfn2 : (addChildCall ret n.function (traverse_for_callstats n)).function = f := by
          rw [addChildCall_function, hf]
        rw [ih _ hfn2 hwf2 hmem2]
        have hsum1 := sumCC_addChildCall k ret n.function (traverse_for_callstats n)
          hret hsubwf (traverse_function n)
        omega

/-- Claim C9 amended: for every function key `k`, the **sum** of
`callcount` over all `CallstatsNode`s carrying key `k` anywhere in the
fully aggregated stats tree equals the number of distinct call-tree
subtrees rooted at `k` across the whole trace, the synthetic root node of
the call tree itself excepted (the root is never counted as a call). -/
theorem C9_callcount_sum (g : CGNode) (k : FunctionKey) :
    sumCallcounts k (traverse_for_callstats g)
      + (if g.function = k then 1 else 0) = countSubtrees k g := by
  induction g using cgNodeInduction with
  | h f es hIH =>
    rw [show traverse_for_callstats (CGNode.mk f es)
        = traverseEntries f (CallstatsNode.ofKey f) es from rfl]
    have hloop := sumCC_traverseEntries f k es (CallstatsNode.ofKey f)
      (ofKey_function f) (csWF_ofKey f) (fun n hn => hIH n hn)
    rw [hloop, sumCC_ofKey]
    rw [show (CGNode.mk f es).function = f from rfl]
    rw [show countSubtrees k (CGNode.mk f es)
        = (if f = k then 1 else 0) + countSubtreesEntries k es from by rw [countSubtrees]]
    omega

/-- Claim C9 counterexample: in the call tree `cgC9` the function `fkK`
roots two distinct subtrees (one under caller `fkA`, one under `fkB`),
yet the aggregated `CallstatsNode` for `fkK` under `fkA` — a
`CallstatsNode` with that function's key produced by the full aggregation
— has `callcount = 1`, not 2: the claim as stated (every `CallstatsNode`
with key `k` has `callcount` equal to the number of subtrees rooted at
`k` across the whole trace) is false. -/
theorem C9_counterexample :
    ¬ (∀ (g : CGNode) (k : FunctionKey) (m : CallstatsNode),
        OccursIn m (traverse_for_callstats g) → m.function = k →
        m.callcount = countSubtrees k g) := by
  intro hclaim
  have hocc : OccursIn m9 (traverse_for_callstats cgC9) := by
    rw [show traverse_for_callstats cgC9
        = .mk {} 0 0
          [(fkA, .mk fkA 1 0 [(fkK, .mk fkK 1 0 [] [])] []),
           (fkB, .mk fkB 1 0 [(fkK, .mk fkK 1 0 [] [])] [])] [] from rfl]
    rw [OccursIn]
    refine Or.inr ?_
    rw [OccursInChildren]
    refine Or.inl ?_
    rw [OccursIn]
    refine Or.inr ?_
    rw [OccursInChildren]
    refine Or.inl ?_
    rw [OccursIn]
    exact Or.inl rfl
  have h1 := hclaim cgC9 fkK m9 hocc rfl
  rw [show m9.callcount = 1 from rfl] at h1
  rw [show countSubtrees fkK cgC9 = 2 from rfl] at h1
  exact absurd h1 (by decide)

/-! Merging a node with an identical copy of itself (claim C8). -/

theorem dictKeysOk_parts (f : FunctionKey) (p r : Nat)
    (ch : List (FunctionKey × CallstatsNode)) (cs : List (String × CmdStats)) :
    dictKeysOk (.mk f p r ch cs) = true ↔
      (keysA ch).Nodup ∧ (keysA cs).Nodup ∧ dictKeysOkChildren ch = true := by
  simp [dictKeysOk, Bool.and_eq_true, decide_eq_true_eq]
  tauto

theorem dictKeysOkChildren_mem :
    ∀ (l : List (FunctionKey × CallstatsNode)), dictKeysOkChildren l = true →
      ∀ kv ∈ l, dictKeysOk kv.2 = true := by
  intro l
  induction l with
  | nil => intro _ kv hm; simp at hm
  | cons hd t ih =>
    intro h kv hm
    obtain ⟨k, v⟩ := hd
    rw [show dictKeysOkChildren ((k, v) :: t) = (dictKeysOk v && dictKeysOkChildren t)
        from by rw [dictKeysOkChildren]] at h
    rw [Bool.and_eq_true] at h
    rcases List.mem_cons.mp hm with heq | hm2
    · rw [heq]; exact h.1
    · exact ih h.2 kv hm2

theorem csDoubleChildren_eq_map :
    ∀ (ch : List (FunctionKey × CallstatsNode)),
      csDoubleChildren ch = ch.map (fun kv => (kv.1, csDouble kv.2)) := by
  intro ch
  induction ch with
  | nil => rfl
  | cons hd t ih =>
    obtain ⟨k, v⟩ := hd
    rw [show csDoubleChildren ((k, v) :: t) = (k, csDouble v) :: csDoubleChildren t
        from by rw [csDoubleChildren]]
    rw [ih, List.map_cons]

theorem keysA_mapValues {K V W : Type} (g : V → W) (l : List (K × V)) :
    keysA (l.map (fun kv => (kv.1, g kv.2))) = keysA l := by
  simp [keysA, List.map_map]

theorem csDouble_mk (f : FunctionKey) (p r : Nat)
    (ch : List (FunctionKey × CallstatsNode)) (cs : List (String × CmdStats)) :
    csDouble (.mk f p r ch cs)
      = .mk f (2 * p) (2 * r) (csDoubleChildren ch)
          (cs.map (fun kv => (kv.1, dblCmd kv.2))) := by
  rw [csDouble]

theorem combCmd_self (s : CmdStats) : combCmd s s = dblCmd s := by
  cases s with
  | mk c cc tt =>
    rw [combCmd, dblCmd]
    simp [two_mul]

theorem merge_self_eq_csDouble : ∀ (n : CallstatsNode), dictKeysOk n = true →
    n.merge n = csDouble n := by
  refine csNodeInduction ?_
  intro f p r ch cs hIH hok
  obtain ⟨hndch, hndcs, hokch⟩ := (dictKeysOk_parts f p r ch cs).mp hok
  rw [merge_mk, csDouble_mk]
  have hcs : mergeCmdstats cs cs
      = cs.map (fun kv => (kv.1, dblCmd kv.2)) := by
    rw [mergeCmdstats_eq_foldUpsert]
    refine assoc_ext _ _ ?_ ?_ ?_
    · rw [keysA_mapValues]
      refine foldUpsert_keys_id _ _ cs cs ?_
      intro kv hkv
      rw [lookupA_of_mem_nodup cs kv hndcs hkv]
      rfl
    · rw [keysA_mapValues]
      exact hndcs
    · intro kv hkv
      obtain ⟨kv0, hkv0, heq⟩ := List.mem_map.mp hkv
      have hupd := foldUpsert_lookup_update combCmd (fun k => { cmd := k }) cs cs hndcs
        (fun kv2 hkv2 => lookupA_of_mem_nodup cs kv2 hndcs hkv2) kv0 hkv0
      rw [← heq]
      rw [hupd, combCmd_self]
  have hch : mergeChildren ch ch = csDoubleChildren ch := by
    rw [mergeChildren_eq_foldUpsert, csDoubleChildren_eq_map]
    refine assoc_ext _ _ ?_ ?_ ?_
    · rw [keysA_mapValues]
      refine foldUpsert_keys_id _ _ ch ch ?_
      intro kv hkv
      rw [lookupA_of_mem_nodup ch kv hndch hkv]
      rfl
    · rw [keysA_mapValues]
      exact hndch
    · intro kv hkv
      obtain ⟨kv0, hkv0, heq⟩ := List.mem_map.mp hkv
      have hupd := foldUpsert_lookup_update CallstatsNode.merge CallstatsNode.ofKey ch ch hndch
        (fun kv2 hkv2 => lookupA_of_mem_nodup ch kv2 hndch hkv2) kv0 hkv0
      rw [← heq]
      rw [hupd]
      rw [hIH kv0 hkv0 (dictKeysOkChildren_mem ch hokch kv0 hkv0)]
  rw [hcs, hch]
  rw [show p + p = 2 * p from by omega, show r + r = 2 * r from by omega]

theorem foldl_add_shift (l : List Int) : ∀ (a : Int),
    l.foldl (fun x y => x + y) a = a + l.foldl (fun x y => x + y) 0 := by
  induction l with
  | nil => intro a; simp
  | cons x t ih =>
    intro a
    rw [List.foldl_cons, List.foldl_cons, ih (a + x), ih (0 + x)]
    ring

theorem sum_map_dbl (cs : List (String × CmdStats)) :
    (cs.map (fun kv => 2 * kv.2.totaltime)).foldl (fun x y => x + y) 0
      = 2 * (cs.map (fun kv => kv.2.totaltime)).foldl (fun x y => x + y) 0 := by
  induction cs with
  | nil => simp
  | cons kv t ih =>
    rw [List.map_cons, List.map_cons, List.foldl_cons, List.foldl_cons]
    rw [foldl_add_shift _ (0 + 2 * kv.2.totaltime)]
    rw [foldl_add_shift (t.map (fun kv => kv.2.totaltime)) (0 + kv.2.totaltime)]
    rw [ih]
    ring

theorem csDouble_function (n : CallstatsNode) : (csDouble n).function = n.function := by
  cases n with
  | mk f p r ch cs => rw [csDouble_mk]; rfl

theorem csDouble_pcc (n : CallstatsNode) :
    (csDouble n).primitivecallcount = 2 * n.primitivecallcount := by
  cases n with
  | mk f p r ch cs => rw [csDouble_mk]; rfl

theorem csDouble_rcc (n : CallstatsNode) :
    (csDouble n).recursivecallcount = 2 * n.recursivecallcount := by
  cases n with
  | mk f p r ch cs => rw [csDouble_mk]; rfl

theorem csDouble_children (n : CallstatsNode) :
    (csDouble n).children = csDoubleChildren n.children := by
  cases n with
  | mk f p r ch cs => rw [csDouble_mk]; rfl

theorem csDouble_cmdstats (n : CallstatsNode) :
    (csDouble n).cmdstats = n.cmdstats.map (fun kv => (kv.1, dblCmd kv.2)) := by
  cases n with
  | mk f p r ch cs => rw [csDouble_mk]; rfl

theorem csDouble_callcount (n : CallstatsNode) :
    (csDouble n).callcount = 2 * n.callcount := by
  rw [CallstatsNode.callcount, CallstatsNode.callcount, csDouble_pcc, csDouble_rcc]
  omega

theorem csDouble_inlinetime (n : CallstatsNode) :
    (csDouble n).inlinetime = 2 * n.inlinetime := by
  rw [CallstatsNode.inlinetime, CallstatsNode.inlinetime, csDouble_cmdstats]
  rw [List.map_map]
  rw [show ((fun kv : String × CmdStats => kv.2.totaltime)
      ∘ (fun kv : String × CmdStats => (kv.1, dblCmd kv.2)))
      = (fun kv : String × CmdStats => 2 * kv.2.totaltime) from by
    funext kv
    rfl]
  exact sum_map_dbl n.cmdstats

theorem childrenTotal_csDoubleChildren :
    ∀ (ch : List (FunctionKey × CallstatsNode)),
      (∀ kv ∈ ch, (csDouble kv.2).totaltime = 2 * kv.2.totaltime) →
      childrenTotal (csDoubleChildren ch) = 2 * childrenTotal ch := by
  intro ch
  induction ch with
  | nil =>
    intro _
    rw [show csDoubleChildren [] = [] from by rw [csDoubleChildren]]
    rw [show childrenTotal [] = 0 from by rw [childrenTotal]]
    ring
  | cons hd t ih =>
    intro hmem
    obtain ⟨k, v⟩ := hd
    rw [show csDoubleChildren ((k, v) :: t) = (k, csDouble v) :: csDoubleChildren t
        from by rw [csDoubleChildren]]
    rw [show childrenTotal ((k, csDouble v) :: csDoubleChildren t)
        = (csDouble v).totaltime + childrenTotal (csDoubleChildren t)
        from by rw [childrenTotal]]
    rw [show childrenTotal ((k, v) :: t) = v.totaltime + childrenTotal t
        from by rw [childrenTotal]]
    rw [hmem (k, v) (List.mem_cons_self _ _)]
    rw [ih (fun kv hkv => hmem kv (List.mem_cons_of_mem _ hkv))]
    ring

theorem csDouble_totaltime : ∀ (n : CallstatsNode),
    (csDouble n).totaltime = 2 * n.totaltime := by
  refine csNodeInduction ?_
  intro f p r ch cs hIH
  rw [csDouble_mk]
  rw [show (CallstatsNode.mk f (2 * p) (2 * r) (csDoubleChildren ch)
      (cs.map (fun kv => (kv.1, dblCmd kv.2)))).totaltime
      = (CallstatsNode.mk f (2 * p) (2 * r) (csDoubleChildren ch)
        (cs.map (fun kv => (kv.1, dblCmd kv.2)))).inlinetime
        + childrenTotal (csDoubleChildren ch)
      from by rw [CallstatsNode.totaltime]]
  rw [show (CallstatsNode.mk f p r ch cs).totaltime
      = (CallstatsNode.mk f p r ch cs).inlinetime + childrenTotal ch
      from by rw [CallstatsNode.totaltime]]
  have hin : (CallstatsNode.mk f (2 * p) (2 * r) (csDoubleChildren ch)
      (cs.map (fun kv => (kv.1, dblCmd kv.2)))).inlinetime
      = 2 * (CallstatsNode.mk f p r ch cs).inlinetime := by
    have := csDouble_inlinetime (.mk f p r ch cs)
    rw [csDouble_mk] at this
    exact this
  rw [hin, childrenTotal_csDoubleChildren ch hIH]
  ring

theorem csDouble_childtime (n : CallstatsNode) :
    (csDouble n).childtime = 2 * n.childtime := by
  rw [CallstatsNode.childtime, CallstatsNode.childtime, csDouble_children]
  exact childrenTotal_csDoubleChildren n.children (fun kv _ => csDouble_totaltime kv.2)

/-- Claim C8: for every `CallstatsNode` (with the pairwise-distinct map
keys that a Python dict guarantees), merging the node with an identical
copy of itself doubles `primitivecallcount`, `recursivecallcount`, every
`CmdStats` entry's `callcount` and `totaltime`, and hence doubles
`callcount`, `inlinetime`, `childtime` and `totaltime`, and leaves both
the `children` and the `cmdstats` key lists unchanged. -/
theorem C8_merge_self_doubles (n : CallstatsNode) (h : dictKeysOk n = true) :
    (n.merge n).primitivecallcount = 2 * n.primitivecallcount ∧
    (n.merge n).recursivecallcount = 2 * n.recursivecallcount ∧
    (∀ c s, lookupA n.cmdstats c = some s →
      lookupA (n.merge n).cmdstats c = some (dblCmd s)) ∧
    (n.merge n).callcount = 2 * n.callcount ∧
    (n.merge n).inlinetime = 2 * n.inlinetime ∧
    (n.merge n).childtime = 2 * n.childtime ∧
    (n.merge n).totaltime = 2 * n.totaltime ∧
    keysA (n.merge n).children = keysA n.children ∧
    keysA (n.merge n).cmdstats = keysA n.cmdstats := by
  rw [merge_self_eq_csDouble n h]
  refine ⟨csDouble_pcc n, csDouble_rcc n, ?_, csDouble_callcount n,
    csDouble_inlinetime n, csDouble_childtime n, csDouble_totaltime n, ?_, ?_⟩
  · intro c s hs
    rw [csDouble_cmdstats, lookupA_mapValues, hs]
    rfl
  · rw [csDouble_children, csDoubleChildren_eq_map, keysA_mapValues]
  · rw [csDouble_cmdstats, keysA_mapValues]

/-! Witnesses: the claim theorems applied at concrete inputs. -/

theorem C1_witness : cgC2.totaltime = sum_spent_us rsC2 :=
  C1_totaltime_conservation rsC2 cgC2 rfl

theorem C2_witness :
    (get_callgraph rsC2).map (fun g =>
        (lookupA (traverse_for_callstats g).children fk1).map
          (fun x => (x.recursivecallcount, (lookupA x.children fk1).isNone)))
      = some (some (1, true)) :=
  (C2_self_recursion_folding fk1 (CallstatsNode.ofKey fk1) [] (CGNode.mk fk1 []) rfl).2.2

theorem C3_witness :
    lookupA (fillChildEdge [] fk1 (CallstatsNode.ofKey fk1)) fk1 =
      (lookupA (addCaller (fillstats [] (CallstatsNode.ofKey fk1)) fk1 fk1
          (CallstatsNode.ofKey fk1)) fk1).map
        (fun ns => { ns with
          totaltime := ns.totaltime - us2s (CallstatsNode.ofKey fk1).totaltime }) :=
  (C3_recursive_subtraction [] fk1 (CallstatsNode.ofKey fk1) rfl).2

theorem C4_witness :
    stepBuilder ([{ function := {}, entries := [] }], 1) (exRec 1 1 2 "s" 5 "f" "c1")
      = some ({ function := (exRec 1 1 2 "s" 5 "f" "c1").function,
                entries := [Sum.inl (exRec 1 1 2 "s" 5 "f" "c1")] }
              :: [{ function := {}, entries := [] }],
              (exRec 1 1 2 "s" 5 "f" "c1").level) :=
  (C4_builder_step [{ function := {}, entries := [] }] 1 (exRec 1 1 2 "s" 5 "f" "c1")).1
    (by decide)

theorem C5_witness : ∃ g, get_callgraph rsC6 = some g :=
  (C5_pop_above_root rsC6).2 (by decide)

theorem C6_witness :
    resC6.length + 1 = (sortRecords rsC6).length ∧
    resC6.get? 0 = some { exRec 0 1000000 1 "" 3 "" "cmd1" with spent_us := 500 } :=
  ⟨(C6_sequencer_deltas rsC6 resC6 rfl).1,
   (C6_sequencer_deltas rsC6 resC6 rfl).2 0 (exRec 0 1000000 1 "" 3 "" "cmd1")
     (exRec 1 1000500 1 "" 4 "" "cmd2") rfl rfl⟩

theorem C8_witness :
    ((traverse_for_callstats cgC2).merge (traverse_for_callstats cgC2)).totaltime
      = 2 * (traverse_for_callstats cgC2).totaltime ∧
    keysA ((traverse_for_callstats cgC2).merge (traverse_for_callstats cgC2)).children
      = keysA (traverse_for_callstats cgC2).children :=
  ⟨(C8_merge_self_doubles (traverse_for_callstats cgC2) (by decide)).2.2.2.2.2.2.1,
   (C8_merge_self_doubles (traverse_for_callstats cgC2) (by decide)).2.2.2.2.2.2.2.1⟩

theorem C10_witness :
    csWF (traverse_for_callstats cgC2) = true ∧
    fillstats [] (traverse_for_callstats cgC2)
      = fillstatsNoSub [] (traverse_for_callstats cgC2) :=
  ⟨(C10_aggregator_invariant cgC2 (CallstatsNode.ofKey fk1) (CallstatsNode.ofKey fk1) []
      rfl rfl rfl).1,
   (C10_aggregator_invariant cgC2 (CallstatsNode.ofKey fk1) (CallstatsNode.ofKey fk1) []
      rfl rfl rfl).2.2.2.2⟩
